import Mathlib

/-!
Verification of the EPUB model builder and split-epub writer
(`src/epubsplit-rs/src/main.rs`) against its natural-language specification.

The embedding models Rust strings at two levels:
* `List Nat` byte lists where byte positions matter (percent decoding,
  UTF-8 lossy decoding, the 1500-byte preview truncation), and
* Lean `String` where the code only compares, concatenates and stores
  strings (hrefs, ids, labels, XML generation).

Fallible operations return `Option`/`Except`; a `none` stands for a Rust
panic on the corresponding code path.
-/

namespace EpubSplit

/-! ## Byte-level string model -/

/-- UTF-8 encoding of one character, as produced by Rust `str::as_bytes`. -/
def charUtf8 (c : Char) : List Nat :=
  let n := c.toNat
  if n < 128 then [n]
  else if n < 2048 then [192 + n / 64, 128 + n % 64]
  else if n < 65536 then [224 + n / 4096, 128 + (n / 64) % 64, 128 + n % 64]
  else [240 + n / 262144, 128 + (n / 4096) % 64, 128 + (n / 64) % 64, 128 + n % 64]

/-- The byte sequence of a Rust string (UTF-8). -/
def strBytes (s : String) : List Nat :=
  (s.data.map charUtf8).flatten

/-- Value of an ASCII hex digit, as accepted by the `percent-encoding` crate
(`0-9`, `A-F`, `a-f`). -/
def hexVal (b : Nat) : Option Nat :=
  if 48 ≤ b ∧ b ≤ 57 then some (b - 48)
  else if 65 ≤ b ∧ b ≤ 70 then some (b - 55)
  else if 97 ≤ b ∧ b ≤ 102 then some (b - 87)
  else none

/-- Fuel-indexed worker for `percentDecode`; every step consumes at least
one byte, so fuel equal to the input length always suffices. -/
def percentDecodeAux : Nat → List Nat → List Nat
  | 0, l => l
  | _ + 1, [] => []
  | fuel + 1, b :: r =>
    if b = 37 then
      match r with
      | h1 :: h2 :: r2 =>
        match hexVal h1, hexVal h2 with
        | some a, some v => (16 * a + v) :: percentDecodeAux fuel r2
        | _, _ => 37 :: percentDecodeAux fuel (h1 :: h2 :: r2)
      | _ => 37 :: percentDecodeAux fuel r
    else b :: percentDecodeAux fuel r

/-- `percent_decode_str`: a `%` followed by two hex digits decodes to one
byte; any other `%` is passed through unchanged. -/
def percentDecode (l : List Nat) : List Nat :=
  percentDecodeAux l.length l

/-- A UTF-8 continuation byte (`0x80..=0xBF`). -/
def isCont (b : Nat) : Bool := 128 ≤ b && b ≤ 191

/-- Admissible second byte of a three-byte UTF-8 sequence headed by `b`. -/
def snd3Ok (b c : Nat) : Bool :=
  (b == 224 && 160 ≤ c && c ≤ 191) ||
  (225 ≤ b && b ≤ 236 && isCont c) ||
  (b == 237 && 128 ≤ c && c ≤ 159) ||
  (238 ≤ b && b ≤ 239 && isCont c)

/-- Admissible second byte of a four-byte UTF-8 sequence headed by `b`. -/
def snd4Ok (b c : Nat) : Bool :=
  (b == 240 && 144 ≤ c && c ≤ 191) ||
  (241 ≤ b && b ≤ 243 && isCont c) ||
  (b == 244 && 128 ≤ c && c ≤ 143)

/-- The bytes of U+FFFD REPLACEMENT CHARACTER. -/
def fffd : List Nat := [239, 191, 189]

/-- Fuel-indexed worker for `utf8Lossy`. -/
def utf8LossyAux : Nat → List Nat → List Nat
  | 0, l => l
  | _ + 1, [] => []
  | fuel + 1, b :: r =>
    if b < 128 then b :: utf8LossyAux fuel r
    else if 194 ≤ b ∧ b ≤ 223 then
      match r with
      | [] => fffd
      | c :: r2 =>
        if isCont c then b :: c :: utf8LossyAux fuel r2
        else fffd ++ utf8LossyAux fuel (c :: r2)
    else if 224 ≤ b ∧ b ≤ 239 then
      match r with
      | [] => fffd
      | c :: r2 =>
        if snd3Ok b c then
          match r2 with
          | [] => fffd
          | d :: r3 =>
            if isCont d then b :: c :: d :: utf8LossyAux fuel r3
            else fffd ++ utf8LossyAux fuel (d :: r3)
        else fffd ++ utf8LossyAux fuel (c :: r2)
    else if 240 ≤ b ∧ b ≤ 244 then
      match r with
      | [] => fffd
      | c :: r2 =>
        if snd4Ok b c then
          match r2 with
          | [] => fffd
          | d :: r3 =>
            if isCont d then
              match r3 with
              | [] => fffd
              | e :: r4 =>
                if isCont e then b :: c :: d :: e :: utf8LossyAux fuel r4
                else fffd ++ utf8LossyAux fuel (e :: r4)
            else fffd ++ utf8LossyAux fuel (d :: r3)
        else fffd ++ utf8LossyAux fuel (c :: r2)
    else fffd ++ utf8LossyAux fuel r

/-- Rust `String::from_utf8_lossy` at the byte level: invalid sequences are
replaced by U+FFFD following the maximal-subpart rule. -/
def utf8Lossy (l : List Nat) : List Nat :=
  utf8LossyAux l.length l

/-- Fuel-indexed worker for `decodeUtf8`. -/
def decodeUtf8Aux : Nat → List Nat → List Char
  | 0, _ => []
  | _ + 1, [] => []
  | fuel + 1, b :: r =>
    if b < 128 then Char.ofNat b :: decodeUtf8Aux fuel r
    else if 194 ≤ b ∧ b ≤ 223 then
      match r with
      | [] => [Char.ofNat 65533]
      | c :: r2 =>
        if isCont c then Char.ofNat ((b - 192) * 64 + (c - 128)) :: decodeUtf8Aux fuel r2
        else Char.ofNat 65533 :: decodeUtf8Aux fuel (c :: r2)
    else if 224 ≤ b ∧ b ≤ 239 then
      match r with
      | [] => [Char.ofNat 65533]
      | c :: r2 =>
        if snd3Ok b c then
          match r2 with
          | [] => [Char.ofNat 65533]
          | d :: r3 =>
            if isCont d then
              Char.ofNat ((b - 224) * 4096 + (c - 128) * 64 + (d - 128)) :: decodeUtf8Aux fuel r3
            else Char.ofNat 65533 :: decodeUtf8Aux fuel (d :: r3)
        else Char.ofNat 65533 :: decodeUtf8Aux fuel (c :: r2)
    else if 240 ≤ b ∧ b ≤ 244 then
      match r with
      | [] => [Char.ofNat 65533]
      | c :: r2 =>
        if snd4Ok b c then
          match r2 with
          | [] => [Char.ofNat 65533]
          | d :: r3 =>
            if isCont d then
              match r3 with
              | [] => [Char.ofNat 65533]
              | e :: r4 =>
                if isCont e then
                  Char.ofNat ((b - 240) * 262144 + (c - 128) * 4096 + (d - 128) * 64 + (e - 128)) :: decodeUtf8Aux fuel r4
                else Char.ofNat 65533 :: decodeUtf8Aux fuel (e :: r4)
            else Char.ofNat 65533 :: decodeUtf8Aux fuel (d :: r3)
        else Char.ofNat 65533 :: decodeUtf8Aux fuel (c :: r2)
    else Char.ofNat 65533 :: decodeUtf8Aux fuel r

/-- Decode a byte list back to characters (used where the code converts the
decoded bytes into a Rust `String`); invalid input decodes to U+FFFD. -/
def decodeUtf8 (l : List Nat) : List Char :=
  decodeUtf8Aux l.length l

/-! ## Path Normalizer (`SplitEpub::normalize_path`) -/

/-- Split a byte list at every `/` (byte 47), keeping empty segments, as
`str::split('/')` does. -/
def splitOnSlash : List Nat → List (List Nat)
  | [] => [[]]
  | b :: r =>
    if b = 47 then [] :: splitOnSlash r
    else
      match splitOnSlash r with
      | [] => [[b]]
      | s :: ss => (b :: s) :: ss

/-- The segment loop of `normalize_path`: `..` pops the previous segment,
`.` and empty segments are dropped, anything else is pushed. -/
def processParts : List (List Nat) → List (List Nat) → List (List Nat)
  | acc, [] => acc
  | acc, s :: rest =>
    if s = [46, 46] then processParts acc.dropLast rest
    else if s = [46] ∨ s = [] then processParts acc rest
    else processParts (acc ++ [s]) rest

/-- `Vec::join("/")` over byte-list segments. -/
def joinSlash : List (List Nat) → List Nat
  | [] => []
  | [s] => s
  | s :: ss => s ++ 47 :: joinSlash ss

/-- `SplitEpub::normalize_path`: percent-decode (lossily), then resolve
`.`/`..`/empty segments and rejoin with `/`. -/
def normalize_path (p : List Nat) : List Nat :=
  joinSlash (processParts [] (splitOnSlash (utf8Lossy (percentDecode p))))

/-- `normalize_path` lifted back to Lean strings, for the call sites that
store its result as a Rust `String`. -/
def normStr (s : String) : String :=
  String.mk (decodeUtf8 (normalize_path (strBytes s)))

example : normStr "OEBPS/../ch1.xhtml" = "ch1.xhtml" := by decide
example : normStr "OEBPS/a%20b.xhtml" = "OEBPS/a b.xhtml" := by decide
example : normalize_path (strBytes "%2525") = strBytes "%25" := by decide

/-! ## Well-formed UTF-8 byte lists -/

/-- A byte list is valid UTF-8: a sequence of well-formed one- to four-byte
character encodings.  Every Rust `&str` satisfies this. -/
inductive Utf8V : List Nat → Prop
  | nil : Utf8V []
  | one {b : Nat} {r : List Nat} : b < 128 → Utf8V r → Utf8V (b :: r)
  | two {b c : Nat} {r : List Nat} :
      194 ≤ b → b ≤ 223 → isCont c = true → Utf8V r → Utf8V (b :: c :: r)
  | three {b c d : Nat} {r : List Nat} :
      224 ≤ b → b ≤ 239 → snd3Ok b c = true → isCont d = true → Utf8V r →
      Utf8V (b :: c :: d :: r)
  | four {b c d e : Nat} {r : List Nat} :
      240 ≤ b → b ≤ 244 → snd4Ok b c = true → isCont d = true → isCont e = true →
      Utf8V r → Utf8V (b :: c :: d :: e :: r)

theorem utf8v_of_ascii : ∀ {l : List Nat}, (∀ x ∈ l, x < 128) → Utf8V l
  | [], _ => .nil
  | b :: r, h =>
    .one (h b (List.mem_cons_self b r)) (utf8v_of_ascii fun x hx => h x (List.mem_cons_of_mem b hx))

theorem utf8v_append {a b : List Nat} (ha : Utf8V a) (hb : Utf8V b) : Utf8V (a ++ b) := by
  induction ha with
  | nil => simpa using hb
  | one h _ ih => exact .one h ih
  | two h1 h2 h3 _ ih => exact .two h1 h2 h3 ih
  | three h1 h2 h3 h4 _ ih => exact .three h1 h2 h3 h4 ih
  | four h1 h2 h3 h4 h5 _ ih => exact .four h1 h2 h3 h4 h5 ih

theorem isCont_of_snd3Ok {b c : Nat} (h : snd3Ok b c = true) : isCont c = true := by
  simp only [snd3Ok, isCont, Bool.or_eq_true, Bool.and_eq_true, beq_iff_eq,
    decide_eq_true_eq] at *
  omega

theorem isCont_of_snd4Ok {b c : Nat} (h : snd4Ok b c = true) : isCont c = true := by
  simp only [snd4Ok, isCont, Bool.or_eq_true, Bool.and_eq_true, beq_iff_eq,
    decide_eq_true_eq] at *
  omega

theorem isCont_large {c : Nat} (h : isCont c = true) : 128 ≤ c := by
  simp only [isCont, Bool.and_eq_true, decide_eq_true_eq] at h
  omega

/-! ## Identity lemmas for lossy decoding on well-formed input -/

theorem percentDecodeAux_eq_self :
    ∀ (fuel : Nat) (l : List Nat), 37 ∉ l → percentDecodeAux fuel l = l := by
  intro fuel
  induction fuel with
  | zero => intro l _; rfl
  | succ f ih =>
    intro l hl
    cases l with
    | nil => rfl
    | cons b r =>
      have hb : b ≠ 37 := fun h => hl (h ▸ List.mem_cons_self b r)
      have hr : 37 ∉ r := fun h => hl (List.mem_cons_of_mem b h)
      simp only [percentDecodeAux, if_neg hb]
      rw [ih r hr]

theorem percentDecode_eq_self {l : List Nat} (h : 37 ∉ l) : percentDecode l = l :=
  percentDecodeAux_eq_self l.length l h

theorem utf8LossyAux_eq_self {l : List Nat} (hv : Utf8V l) :
    ∀ fuel, l.length ≤ fuel → utf8LossyAux fuel l = l := by
  induction hv with
  | nil =>
    intro fuel _
    cases fuel <;> rfl
  | @one b r hb _ ih =>
    intro fuel hfuel
    cases fuel with
    | zero => simp at hfuel
    | succ f =>
      simp only [utf8LossyAux, if_pos hb]
      rw [ih f (by simpa using hfuel)]
  | @two b c r hb1 hb2 hc _ ih =>
    intro fuel hfuel
    cases fuel with
    | zero => simp at hfuel
    | succ f =>
      have hlen : r.length ≤ f := by simp at hfuel; omega
      simp only [utf8LossyAux, if_neg (by omega : ¬ b < 128), if_pos (And.intro hb1 hb2)]
      simp [hc, ih f hlen]
  | @three b c d r hb1 hb2 hc hd _ ih =>
    intro fuel hfuel
    cases fuel with
    | zero => simp at hfuel
    | succ f =>
      have hlen : r.length ≤ f := by simp at hfuel; omega
      simp only [utf8LossyAux, if_neg (by omega : ¬ b < 128),
        if_neg (by omega : ¬ (194 ≤ b ∧ b ≤ 223)), if_pos (And.intro hb1 hb2)]
      simp [hc, hd, ih f hlen]
  | @four b c d e r hb1 hb2 hc hd he _ ih =>
    intro fuel hfuel
    cases fuel with
    | zero => simp at hfuel
    | succ f =>
      have hlen : r.length ≤ f := by simp at hfuel; omega
      simp only [utf8LossyAux, if_neg (by omega : ¬ b < 128),
        if_neg (by omega : ¬ (194 ≤ b ∧ b ≤ 223)), if_neg (by omega : ¬ (224 ≤ b ∧ b ≤ 239)),
        if_pos (And.intro hb1 hb2)]
      simp [hc, hd, he, ih f hlen]

theorem utf8Lossy_eq_self {l : List Nat} (hv : Utf8V l) : utf8Lossy l = l :=
  utf8LossyAux_eq_self hv l.length le_rfl

/-! ## Lemmas about segment splitting and joining -/

theorem splitOnSlash_ne_nil : ∀ l : List Nat, splitOnSlash l ≠ []
  | [] => by simp [splitOnSlash]
  | b :: r => by
    by_cases hb : b = 47
    · simp [splitOnSlash, hb]
    · have := splitOnSlash_ne_nil r
      cases h : splitOnSlash r with
      | nil => exact absurd h this
      | cons s ss => simp [splitOnSlash, hb, h]

theorem splitOnSlash_cons_slash (r : List Nat) : splitOnSlash (47 :: r) = [] :: splitOnSlash r := by
  simp [splitOnSlash]

theorem splitOnSlash_cons_of_ne {b : Nat} (hb : ¬ b = 47) {r : List Nat} {s0 : List Nat}
    {ss : List (List Nat)} (heq : splitOnSlash r = s0 :: ss) :
    splitOnSlash (b :: r) = (b :: s0) :: ss := by
  simp [splitOnSlash, hb, heq]

theorem mem_splitOnSlash_no_slash :
    ∀ (l : List Nat) (s : List Nat), s ∈ splitOnSlash l → 47 ∉ s := by
  intro l
  induction l with
  | nil =>
    intro s hs
    simp only [splitOnSlash, List.mem_singleton] at hs
    simp [hs]
  | cons b r ih =>
    intro s hs
    by_cases hb : b = 47
    · subst hb
      rw [splitOnSlash_cons_slash] at hs
      rcases List.mem_cons.mp hs with h | h
      · simp [h]
      · exact ih s h
    · obtain ⟨s0, ss, heq⟩ := List.exists_cons_of_ne_nil (splitOnSlash_ne_nil r)
      rw [splitOnSlash_cons_of_ne hb heq] at hs
      rcases List.mem_cons.mp hs with h | h
      · subst h
        intro hmem
        rcases List.mem_cons.mp hmem with h47 | h47
        · exact hb h47.symm
        · exact ih s0 (heq ▸ List.mem_cons_self s0 ss) h47
      · exact ih s (heq ▸ List.mem_cons_of_mem s0 h)

theorem mem_of_mem_splitOnSlash :
    ∀ (l : List Nat) (s : List Nat), s ∈ splitOnSlash l → ∀ x ∈ s, x ∈ l := by
  intro l
  induction l with
  | nil =>
    intro s hs
    simp only [splitOnSlash, List.mem_singleton] at hs
    simp [hs]
  | cons b r ih =>
    intro s hs x hx
    by_cases hb : b = 47
    · subst hb
      rw [splitOnSlash_cons_slash] at hs
      rcases List.mem_cons.mp hs with h | h
      · simp [h] at hx
      · exact List.mem_cons_of_mem _ (ih s h x hx)
    · obtain ⟨s0, ss, heq⟩ := List.exists_cons_of_ne_nil (splitOnSlash_ne_nil r)
      rw [splitOnSlash_cons_of_ne hb heq] at hs
      rcases List.mem_cons.mp hs with h | h
      · subst h
        rcases List.mem_cons.mp hx with h | h
        · simp [h]
        · exact List.mem_cons_of_mem _ (ih s0 (heq ▸ List.mem_cons_self s0 ss) x h)
      · exact List.mem_cons_of_mem _ (ih s (heq ▸ List.mem_cons_of_mem s0 h) x hx)

theorem utf8v_splitOnSlash {l : List Nat} (hv : Utf8V l) :
    ∀ s ∈ splitOnSlash l, Utf8V s := by
  induction hv with
  | nil =>
    intro s hs
    simp only [splitOnSlash, List.mem_singleton] at hs
    exact hs ▸ .nil
  | @one b r hb hr ih =>
    intro s hs
    by_cases h47 : b = 47
    · subst h47
      rw [splitOnSlash_cons_slash] at hs
      rcases List.mem_cons.mp hs with h | h
      · exact h ▸ .nil
      · exact ih s h
    · obtain ⟨s0, ss, heq⟩ := List.exists_cons_of_ne_nil (splitOnSlash_ne_nil r)
      rw [splitOnSlash_cons_of_ne h47 heq] at hs
      rcases List.mem_cons.mp hs with h | h
      · exact h ▸ .one hb (ih s0 (heq ▸ List.mem_cons_self s0 ss))
      · exact ih s (heq ▸ List.mem_cons_of_mem s0 h)
  | @two b c r hb1 hb2 hc hr ih =>
    intro s hs
    obtain ⟨s0, ss, heq⟩ := List.exists_cons_of_ne_nil (splitOnSlash_ne_nil r)
    have hcne : ¬ c = 47 := by have := isCont_large hc; omega
    have hbne : ¬ b = 47 := by omega
    rw [splitOnSlash_cons_of_ne hbne (splitOnSlash_cons_of_ne hcne heq)] at hs
    rcases List.mem_cons.mp hs with h | h
    · exact h ▸ .two hb1 hb2 hc (ih s0 (heq ▸ List.mem_cons_self s0 ss))
    · exact ih s (heq ▸ List.mem_cons_of_mem s0 h)
  | @three b c d r hb1 hb2 hc hd hr ih =>
    intro s hs
    obtain ⟨s0, ss, heq⟩ := List.exists_cons_of_ne_nil (splitOnSlash_ne_nil r)
    have hcne : ¬ c = 47 := by have := isCont_large (isCont_of_snd3Ok hc); omega
    have hdne : ¬ d = 47 := by have := isCont_large hd; omega
    have hbne : ¬ b = 47 := by omega
    rw [splitOnSlash_cons_of_ne hbne
      (splitOnSlash_cons_of_ne hcne (splitOnSlash_cons_of_ne hdne heq))] at hs
    rcases List.mem_cons.mp hs with h | h
    · exact h ▸ .three hb1 hb2 hc hd (ih s0 (heq ▸ List.mem_cons_self s0 ss))
    · exact ih s (heq ▸ List.mem_cons_of_mem s0 h)
  | @four b c d e r hb1 hb2 hc hd he hr ih =>
    intro s hs
    obtain ⟨s0, ss, heq⟩ := List.exists_cons_of_ne_nil (splitOnSlash_ne_nil r)
    have hcne : ¬ c = 47 := by have := isCont_large (isCont_of_snd4Ok hc); omega
    have hdne : ¬ d = 47 := by have := isCont_large hd; omega
    have hene : ¬ e = 47 := by have := isCont_large he; omega
    have hbne : ¬ b = 47 := by omega
    rw [splitOnSlash_cons_of_ne hbne (splitOnSlash_cons_of_ne hcne
      (splitOnSlash_cons_of_ne hdne (splitOnSlash_cons_of_ne hene heq)))] at hs
    rcases List.mem_cons.mp hs with h | h
    · exact h ▸ .four hb1 hb2 hc hd he (ih s0 (heq ▸ List.mem_cons_self s0 ss))
    · exact ih s (heq ▸ List.mem_cons_of_mem s0 h)

theorem splitOnSlash_no_slash : ∀ {s : List Nat}, 47 ∉ s → splitOnSlash s = [s]
  | [], _ => rfl
  | b :: r, h => by
    have hb : ¬ b = 47 := fun hb => h (hb ▸ List.mem_cons_self b r)
    have hr : 47 ∉ r := fun hr => h (List.mem_cons_of_mem b hr)
    exact splitOnSlash_cons_of_ne hb (splitOnSlash_no_slash hr)

theorem splitOnSlash_append_slash :
    ∀ {s t : List Nat}, 47 ∉ s → splitOnSlash (s ++ 47 :: t) = s :: splitOnSlash t
  | [], t, _ => by simpa using splitOnSlash_cons_slash t
  | b :: r, t, h => by
    have hb : ¬ b = 47 := fun hb => h (hb ▸ List.mem_cons_self b r)
    have hr : 47 ∉ r := fun hr => h (List.mem_cons_of_mem b hr)
    have := @splitOnSlash_append_slash r t hr
    simpa using splitOnSlash_cons_of_ne hb this

theorem splitOnSlash_joinSlash :
    ∀ {ps : List (List Nat)}, ps ≠ [] → (∀ s ∈ ps, 47 ∉ s) →
      splitOnSlash (joinSlash ps) = ps
  | [], h, _ => absurd rfl h
  | [s], _, h47 => by
    simpa [joinSlash] using splitOnSlash_no_slash (h47 s (by simp))
  | s :: s2 :: ss, _, h47 => by
    have hs : 47 ∉ s := h47 s (by simp)
    have hrest : ∀ u ∈ s2 :: ss, 47 ∉ u := fun u hu => h47 u (List.mem_cons_of_mem s hu)
    have ih := @splitOnSlash_joinSlash (s2 :: ss) (by simp) hrest
    show splitOnSlash (s ++ 47 :: joinSlash (s2 :: ss)) = _
    rw [splitOnSlash_append_slash hs, ih]

theorem mem_joinSlash :
    ∀ (ps : List (List Nat)) (x : Nat), x ∈ joinSlash ps → x = 47 ∨ ∃ s ∈ ps, x ∈ s
  | [], x, h => by simp [joinSlash] at h
  | [s], x, h => .inr ⟨s, by simp, by simpa [joinSlash] using h⟩
  | s :: s2 :: ss, x, h => by
    have h' : x ∈ s ++ 47 :: joinSlash (s2 :: ss) := h
    rcases List.mem_append.mp h' with h | h
    · exact .inr ⟨s, by simp, h⟩
    · rcases List.mem_cons.mp h with h | h
      · exact .inl h
      · rcases mem_joinSlash (s2 :: ss) x h with h | ⟨u, hu, hx⟩
        · exact .inl h
        · exact .inr ⟨u, List.mem_cons_of_mem s hu, hx⟩

theorem utf8v_joinSlash :
    ∀ {ps : List (List Nat)}, (∀ s ∈ ps, Utf8V s) → Utf8V (joinSlash ps)
  | [], _ => .nil
  | [s], h => by simpa [joinSlash] using h s (by simp)
  | s :: s2 :: ss, h => by
    have hs : Utf8V s := h s (by simp)
    have hrest : Utf8V (joinSlash (s2 :: ss)) :=
      utf8v_joinSlash fun u hu => h u (List.mem_cons_of_mem s hu)
    exact utf8v_append hs (.one (by omega) hrest)

/-! ## Lemmas about the segment-resolution loop -/

theorem mem_of_mem_dropLast {α : Type} {x : α} :
    ∀ {l : List α}, x ∈ l.dropLast → x ∈ l
  | [], h => by simp at h
  | [a], h => by simp [List.dropLast] at h
  | a :: b :: t, h => by
    rw [show (a :: b :: t).dropLast = a :: (b :: t).dropLast from rfl] at h
    rcases List.mem_cons.mp h with h | h
    · simp [h]
    · exact List.mem_cons_of_mem _ (mem_of_mem_dropLast h)

theorem processParts_mem :
    ∀ (l : List (List Nat)) (acc : List (List Nat)) (s : List Nat),
      s ∈ processParts acc l →
      s ∈ acc ∨ (s ∈ l ∧ s ≠ [] ∧ s ≠ [46] ∧ s ≠ [46, 46]) := by
  intro l
  induction l with
  | nil => intro acc s hs; exact .inl hs
  | cons hd tl ih =>
    intro acc s hs
    by_cases h2 : hd = [46, 46]
    · rw [show processParts acc (hd :: tl) = processParts acc.dropLast tl by
        simp [processParts, h2]] at hs
      rcases ih _ s hs with h | ⟨h, hne⟩
      · exact .inl (mem_of_mem_dropLast h)
      · exact .inr ⟨List.mem_cons_of_mem hd h, hne⟩
    · by_cases h1 : hd = [46] ∨ hd = []
      · rw [show processParts acc (hd :: tl) = processParts acc tl by
          simp [processParts, h2, h1]] at hs
        rcases ih _ s hs with h | ⟨h, hne⟩
        · exact .inl h
        · exact .inr ⟨List.mem_cons_of_mem hd h, hne⟩
      · rw [show processParts acc (hd :: tl) = processParts (acc ++ [hd]) tl by
          simp [processParts, h2, h1]] at hs
        rcases ih _ s hs with h | ⟨h, hne⟩
        · rcases List.mem_append.mp h with h | h
          · exact .inl h
          · refine .inr ⟨?_, ?_, ?_, ?_⟩
            · simp at h; simp [h]
            all_goals
              simp only [List.mem_singleton] at h
              subst h
              push_neg at h1
              first
                | exact h1.2
                | exact h1.1
                | exact h2
        · exact .inr ⟨List.mem_cons_of_mem hd h, hne⟩

theorem processParts_good :
    ∀ (l : List (List Nat)) (acc : List (List Nat)),
      (∀ s ∈ l, s ≠ [] ∧ s ≠ [46] ∧ s ≠ [46, 46]) →
      processParts acc l = acc ++ l := by
  intro l
  induction l with
  | nil => intro acc _; simp [processParts]
  | cons hd tl ih =>
    intro acc h
    obtain ⟨hne, h46, h4646⟩ := h hd (by simp)
    rw [show processParts acc (hd :: tl) = processParts (acc ++ [hd]) tl by
      simp [processParts, h4646, h46, hne]]
    rw [ih _ fun s hs => h s (List.mem_cons_of_mem hd hs)]
    simp

/-! ## Claim C5 -/

/-- C5 counterexample: the path normalizer is not idempotent on the valid
percent-encoded path `%2525`: one application yields `%25`, a second
application percent-decodes again and yields `%`. -/
theorem c5_counterexample :
    normalize_path (normalize_path (strBytes "%2525")) ≠ normalize_path (strBytes "%2525") := by
  decide

/-- C5 (amended): the path normalizer is idempotent on every valid UTF-8
path that contains no percent sign (byte 37); paths with percent-encoded
data may decode again on a second pass. -/
theorem c5_normalize_path_idem (p : List Nat) (hv : Utf8V p) (h37 : 37 ∉ p) :
    normalize_path (normalize_path p) = normalize_path p := by
  have hd : percentDecode p = p := percentDecode_eq_self h37
  have hl : utf8Lossy p = p := utf8Lossy_eq_self hv
  have hnp : normalize_path p = joinSlash (processParts [] (splitOnSlash p)) := by
    simp [normalize_path, hd, hl]
  set parts := processParts [] (splitOnSlash p) with hparts
  have hgood : ∀ s ∈ parts,
      s ∈ splitOnSlash p ∧ s ≠ [] ∧ s ≠ [46] ∧ s ≠ [46, 46] := by
    intro s hs
    rcases processParts_mem _ _ _ hs with h | ⟨h, hne⟩
    · simp at h
    · exact ⟨h, hne⟩
  have h47 : ∀ s ∈ parts, 47 ∉ s := fun s hs =>
    mem_splitOnSlash_no_slash p s (hgood s hs).1
  have hvparts : ∀ s ∈ parts, Utf8V s := fun s hs =>
    utf8v_splitOnSlash hv s (hgood s hs).1
  have hnp37 : 37 ∉ joinSlash parts := by
    intro hmem
    rcases mem_joinSlash parts 37 hmem with h | ⟨s, hs, hx⟩
    · omega
    · exact h37 (mem_of_mem_splitOnSlash p s (hgood s hs).1 37 hx)
  have hnpv : Utf8V (joinSlash parts) := utf8v_joinSlash hvparts
  by_cases hne : parts = []
  · rw [hnp, hne]
    show normalize_path (joinSlash []) = joinSlash []
    decide
  · rw [hnp]
    show normalize_path (joinSlash parts) = joinSlash parts
    rw [normalize_path, percentDecode_eq_self hnp37, utf8Lossy_eq_self hnpv,
      splitOnSlash_joinSlash hne h47,
      processParts_good _ _ fun s hs => (hgood s hs).2]
    simp

/-- C5 witness: the amended idempotence theorem applied to the concrete
dotted-segment path `a/../b`. -/
theorem c5_witness :
    normalize_path (normalize_path (strBytes "a/../b")) = normalize_path (strBytes "a/../b") :=
  c5_normalize_path_idem (strBytes "a/../b") (utf8v_of_ascii (by decide)) (by decide)

/-! ## Preview samples (`SplitEpub::get_split_lines`, lines 503-510 and 529-536) -/

/-- Rust `str::is_char_boundary` at byte index `i`. -/
def isCharBoundary (l : List Nat) (i : Nat) : Bool :=
  if i = 0 then true
  else
    match l[i]? with
    | none => i = l.length
    | some b => !(128 ≤ b && b ≤ 191)

/-- The bounded preview sample: contents longer than 1500 bytes are truncated
at byte position 1500 and terminated with `...`.  Rust's byte slice
`&content[..1500]` panics when 1500 is not a character boundary; the panic is
modelled as `none`. -/
def boundedSample (content : List Nat) : Option (List Nat) :=
  if 1500 < content.length then
    if isCharBoundary content 1500 then some (content.take 1500 ++ [46, 46, 46]) else none
  else some content

/-- A valid UTF-8 content string whose byte 1500 falls inside the two-byte
encoding of U+00E9: 1499 ASCII `a`s followed by `é`. -/
def c10BadContent : List Nat := List.replicate 1499 97 ++ [195, 169]

/-- C10: the preview-sample computation is not total.  `c10BadContent` is
valid UTF-8 of length 1501 > 1500, yet byte position 1500 is a continuation
byte, so the slice `&content[..1500]` panics (`boundedSample` returns
`none`). -/
theorem c10_sample_truncation_panics :
    c10BadContent.length = 1501 ∧ Utf8V c10BadContent ∧ boundedSample c10BadContent = none := by
  have hlen : c10BadContent.length = 1501 := by
    rw [c10BadContent, List.length_append, List.length_replicate]
    rfl
  refine ⟨hlen, ?_, ?_⟩
  · exact utf8v_append
      (utf8v_of_ascii (by intro x hx; rw [List.eq_of_mem_replicate hx]; omega))
      (.two (by omega) (by omega) (by decide) .nil)
  · have hb : c10BadContent[1500]? = some 169 := by
      rw [c10BadContent, List.getElem?_append_right (by rw [List.length_replicate]; omega),
        List.length_replicate]
      rfl
    have hcb : isCharBoundary c10BadContent 1500 = false := by
      simp only [isCharBoundary, hb]
      decide
    simp only [boundedSample, hlen, hcb]
    simp

/-! ## The split-point data model -/

structure ManifestItem where
  id : String
  href : String
  media_type : String
deriving DecidableEq

structure TocEntry where
  text : String
  anchor : Option String
deriving DecidableEq

structure SplitLine where
  toc : List String
  guide : Option (String × String)
  anchor : Option String
  id : String
  href : String
  media_type : String
  sample : List Nat
deriving DecidableEq

/-- The in-memory EPUB model (`struct SplitEpub`): the parsed manifest, guide
and navigation maps, the spine id order (as produced by `parse_spine`), the
archive contents, and the original metadata.  Hash maps are modelled as
association lists looked up by first match. -/
structure Model where
  manifest_items : List (String × ManifestItem)
  guide_items : List (String × (String × String))
  toc_map : List (String × List TocEntry)
  spine : List String
  archive : List (String × String)
  orig_title : String
  orig_authors : List String
deriving DecidableEq

/-- Errors (and panics) that `get_split_lines` can produce. -/
inductive SplitErr
  | spineMissing (idref : String)
  | samplePanic (href : String)
  | anchorPanic (href anchor : String)
deriving DecidableEq

/-- `read_file_from_archive` on the model's archive map. -/
def read_file_from_archive (m : Model) (p : String) : Option String :=
  m.archive.lookup p

/-- Prefix search used by `find` on one needle. -/
def startsList : List Char → List Char → Bool
  | [], _ => true
  | _ :: _, [] => false
  | p :: ps, h :: hs => p == h && startsList ps hs

/-- `str::find(pattern)`: byte (here character) index of the first
occurrence. -/
def findSub (pat : List Char) : List Char → Option Nat
  | [] => if pat = [] then some 0 else none
  | c :: rest =>
    if startsList pat (c :: rest) then some 0
    else (findSub pat rest).map (· + 1)

/-- `SplitEpub::split_html_at_anchor`: locate the first `id=`/`name=`
attribute equal to the anchor (double- then single-quoted) and return the
text from that point on. -/
def split_html_at_anchor (html anchor : String) : Option String :=
  let hay := html.data
  match findSub ("id=\"" ++ anchor ++ "\"").data hay with
  | some pos => some (String.mk (hay.drop pos))
  | none =>
    match findSub ("id=\x27" ++ anchor ++ "\x27").data hay with
    | some pos => some (String.mk (hay.drop pos))
    | none =>
      match findSub ("name=\"" ++ anchor ++ "\"").data hay with
      | some pos => some (String.mk (hay.drop pos))
      | none =>
        match findSub ("name=\x27" ++ anchor ++ "\x27").data hay with
        | some pos => some (String.mk (hay.drop pos))
        | none => none

/-- The navigation walk inside `get_split_lines`: anchor-free entries extend
the current split point's label list; anchor entries close the current point
and open a new one whose sample starts at the anchor occurrence. -/
def processTocEntries (item : ManifestItem) (content : String) :
    List TocEntry → SplitLine → Except SplitErr (List SplitLine)
  | [], current => .ok [current]
  | e :: rest, current =>
    match e.anchor with
    | none => processTocEntries item content rest { current with toc := current.toc ++ [e.text] }
    | some a =>
      let anchorTail := (split_html_at_anchor content a).getD ""
      match boundedSample (strBytes anchorTail) with
      | none => .error (.anchorPanic item.href a)
      | some s =>
        (processTocEntries item content rest
          { toc := [e.text], guide := none, anchor := some a, id := item.id,
            href := item.href, media_type := item.media_type, sample := s }).map
          (fun ls => current :: ls)

/-- One spine item's contribution to the split-point sequence. -/
def splitLinesForItem (m : Model) (item : ManifestItem) : Except SplitErr (List SplitLine) :=
  let content := (read_file_from_archive m item.href).getD ""
  match boundedSample (strBytes content) with
  | none => .error (.samplePanic item.href)
  | some sample =>
    let current : SplitLine :=
      { toc := [], guide := m.guide_items.lookup item.href, anchor := none,
        id := item.id, href := item.href, media_type := item.media_type, sample := sample }
    processTocEntries item content ((m.toc_map.lookup item.href).getD []) current

/-- Worker of `get_split_lines` over the spine id list. -/
def getSplitLinesGo (m : Model) : List String → Except SplitErr (List SplitLine)
  | [] => .ok []
  | idref :: rest =>
    match m.manifest_items.lookup idref with
    | none => .error (.spineMissing idref)
    | some item =>
      match splitLinesForItem m item with
      | .error e => .error e
      | .ok ls =>
        match getSplitLinesGo m rest with
        | .error e => .error e
        | .ok rest2 => .ok (ls ++ rest2)

/-- `SplitEpub::get_split_lines`. -/
def get_split_lines (m : Model) : Except SplitErr (List SplitLine) :=
  getSplitLinesGo m m.spine

/-! ## Claim C1 -/

/-- The single split point a spine item contributes when the navigation map
is empty. -/
def noTocLine (m : Model) (item : ManifestItem) (sample : List Nat) : SplitLine :=
  { toc := [], guide := m.guide_items.lookup item.href, anchor := none,
    id := item.id, href := item.href, media_type := item.media_type, sample := sample }

theorem splitLinesForItem_no_toc (m : Model) (htoc : m.toc_map = []) (item : ManifestItem) :
    splitLinesForItem m item =
      match boundedSample (strBytes ((read_file_from_archive m item.href).getD "")) with
      | none => Except.error (SplitErr.samplePanic item.href)
      | some sample => Except.ok [noTocLine m item sample] := by
  cases hsm : boundedSample (strBytes ((read_file_from_archive m item.href).getD "")) with
  | none => simp only [splitLinesForItem, htoc, List.lookup_nil, Option.getD_none, hsm]
  | some sample =>
    simp only [splitLinesForItem, htoc, List.lookup_nil, Option.getD_none, hsm,
      processTocEntries, noTocLine]

theorem getSplitLinesGo_no_toc (m : Model) (htoc : m.toc_map = []) :
    ∀ (sp : List String) (ls : List SplitLine), getSplitLinesGo m sp = .ok ls →
      ls.length = sp.length ∧
      (∀ sl ∈ ls, sl.anchor = none) ∧
      ls.map SplitLine.href = sp.map (fun idref =>
        match m.manifest_items.lookup idref with
        | some item => item.href
        | none => "") := by
  intro sp
  induction sp with
  | nil =>
    intro ls h
    simp only [getSplitLinesGo] at h
    cases h
    simp
  | cons idref rest ih =>
    intro ls h
    simp only [getSplitLinesGo] at h
    cases hlk : m.manifest_items.lookup idref with
    | none => rw [hlk] at h; cases h
    | some item =>
      simp only [hlk] at h
      rw [splitLinesForItem_no_toc m htoc item] at h
      cases hsm : boundedSample (strBytes ((read_file_from_archive m item.href).getD "")) with
      | none => simp only [hsm] at h; cases h
      | some sample =>
        simp only [hsm] at h
        cases hrest : getSplitLinesGo m rest with
        | error e => simp only [hrest] at h; cases h
        | ok rest2 =>
          simp only [hrest, List.singleton_append, Except.ok.injEq] at h
          subst h
          obtain ⟨ih1, ih2, ih3⟩ := ih rest2 hrest
          refine ⟨by simp [ih1], ?_, ?_⟩
          · intro sl hsl
            rcases List.mem_cons.mp hsl with h | h
            · simp [h, noTocLine]
            · exact ih2 sl h
          · simp only [List.map_cons, ih3, hlk]
            simp [noTocLine]

/-- C1: for a model with no navigation document (empty navigation map), the
split-point sequence has exactly one entry per spine item, in spine order,
each with no anchor. -/
theorem c1_no_nav_split_points (m : Model) (ls : List SplitLine)
    (htoc : m.toc_map = []) (h : get_split_lines m = .ok ls) :
    ls.length = m.spine.length ∧
    (∀ sl ∈ ls, sl.anchor = none) ∧
    ls.map SplitLine.href = m.spine.map (fun idref =>
      match m.manifest_items.lookup idref with
      | some item => item.href
      | none => "") :=
  getSplitLinesGo_no_toc m htoc m.spine ls h

def mW1 : Model :=
  { manifest_items := [("c1", ⟨"c1", "ch1.xhtml", "application/xhtml+xml"⟩)]
    guide_items := []
    toc_map := []
    spine := ["c1"]
    archive := [("ch1.xhtml", "<html>hi</html>")]
    orig_title := "T"
    orig_authors := ["A"] }

def lsW1 : List SplitLine :=
  [{ toc := [], guide := none, anchor := none, id := "c1", href := "ch1.xhtml",
     media_type := "application/xhtml+xml", sample := strBytes "<html>hi</html>" }]

/-- C1 witness: a one-chapter archive with no navigation document yields one
split point. -/
theorem c1_witness : lsW1.length = mW1.spine.length :=
  (c1_no_nav_split_points mW1 lsW1 rfl rfl).1

/-! ## Resource dependency scanner
(`SplitEpub::scan_for_linked_files` / `scan_css_for_resources`)

The four regexes of the source are modelled as concrete left-to-right
scanners with the same leftmost-match, continue-after-match semantics as
`Regex::captures_iter`. -/

/-- `SplitEpub::get_path_part`: everything up to and including the last
`/`, or empty. -/
def get_path_part (p : String) : String :=
  String.mk ((p.data.reverse.dropWhile (fun c => !(c == '/'))).reverse)

/-- `str::starts_with` for string patterns. -/
def strStarts (s pat : String) : Bool := startsList pat.data s.data

/-- Match a literal and return the rest of the input. -/
def dropLit : List Char → List Char → Option (List Char)
  | [], l => some l
  | _ :: _, [] => none
  | p :: ps, c :: cs => if p == c then dropLit ps cs else none

def isQuote (c : Char) : Bool := c == '"' || c == '\x27'

/-- `["']([^"']+)["']`: an opening quote, a nonempty run of non-quote
characters, a closing quote.  Returns the capture and the number of
characters consumed. -/
def quoteCap : List Char → Option (List Char × Nat)
  | [] => none
  | q :: r =>
    if isQuote q then
      let cap := r.takeWhile (fun c => !(isQuote c))
      match r.drop cap.length with
      | q2 :: _ =>
        if cap.isEmpty then none
        else if isQuote q2 then some (cap, cap.length + 2) else none
      | [] => none
    else none

/-- One attempted match of `(?:src|xlink:href)=["']([^"']+)["']` at the head
of the input. -/
def tryImg (l : List Char) : Option (List Char × Nat) :=
  match dropLit "src=".data l with
  | some r => (quoteCap r).map (fun p => (p.1, p.2 + 4))
  | none =>
    match dropLit "xlink:href=".data l with
    | some r => (quoteCap r).map (fun p => (p.1, p.2 + 11))
    | none => none

/-- Left-to-right scan collecting every non-overlapping match of `tryFn`. -/
def scanAllAux (tryFn : List Char → Option (List Char × Nat)) :
    Nat → List Char → List (List Char)
  | 0, _ => []
  | _ + 1, [] => []
  | fuel + 1, c :: rest =>
    match tryFn (c :: rest) with
    | some (cap, k) => cap :: scanAllAux tryFn fuel ((c :: rest).drop (max k 1))
    | none => scanAllAux tryFn fuel rest

def scanAll (tryFn : List Char → Option (List Char × Nat)) (l : List Char) :
    List (List Char) :=
  scanAllAux tryFn l.length l

/-- All captures of the `src=`/`xlink:href=` attribute regex. -/
def imgRefs (content : String) : List String :=
  (scanAll tryImg content.data).map String.mk

/-- Whether the capture satisfies `[^"']+\.css` (nonempty stem plus a
literal `.css` suffix). -/
def endsWithCss (cap : List Char) : Bool :=
  5 ≤ cap.length && cap.drop (cap.length - 4) == ".css".data

/-- `["']([^"']+\.css)["']` at the head of the input: the captured maximal
non-quote run must end in `.css`. -/
def quoteCapCss : List Char → Option (List Char)
  | [] => none
  | q :: r =>
    if isQuote q then
      let cap := r.takeWhile (fun c => !(isQuote c))
      match r.drop cap.length with
      | q2 :: _ =>
        if cap.isEmpty then none
        else if isQuote q2 && endsWithCss cap then some cap else none
      | [] => none
    else none

def hrefCssAt (l : List Char) : Option (List Char) :=
  match dropLit "href=".data l with
  | some r => quoteCapCss r
  | none => none

/-- The backtracking of the greedy `[^>]+` in the link regex: try `href=`
positions inside the tag from the rightmost one down to offset 1. -/
def lastHrefCssAux (tag : List Char) : Nat → Option (List Char)
  | 0 => none
  | p + 1 =>
    match hrefCssAt (tag.drop (p + 1)) with
    | some cap => some cap
    | none => lastHrefCssAux tag p

/-- One attempted match of `<link[^>]+href=["']([^"']+\.css)["'][^>]*>` at
the head of the input. -/
def tryCssLink (l : List Char) : Option (List Char × Nat) :=
  match dropLit "<link".data l with
  | none => none
  | some r =>
    let tag := r.takeWhile (fun c => !(c == '>'))
    if tag.length = r.length then none
    else
      match lastHrefCssAux tag tag.length with
      | some cap => some (cap, 5 + tag.length + 1)
      | none => none

/-- All stylesheet hrefs found by the `<link ... href="*.css">` regex. -/
def cssLinkRefs (content : String) : List String :=
  (scanAll tryCssLink content.data).map String.mk

def isWs (c : Char) : Bool :=
  c == ' ' || c == '\t' || c == '\n' || c == '\r' || c == '\x0b' || c == '\x0c'

def notQuoteParen (c : Char) : Bool := !(isQuote c || c == ')')

/-- Length consumed by an optional quote. -/
def optQuote (l : List Char) : Nat :=
  match l with
  | c :: _ => if isQuote c then 1 else 0
  | [] => 0

/-- `["']?([^"'\)]+)["']?\)?`: the shared tail of the `@import` regex. -/
def tryImportTail (l : List Char) : Option (List Char × Nat) :=
  let q1 := optQuote l
  let l1 := l.drop q1
  let cap := l1.takeWhile notQuoteParen
  if cap.isEmpty then none
  else
    let l2 := l1.drop cap.length
    let q2 := optQuote l2
    let l3 := l2.drop q2
    let p :=
      match l3 with
      | c :: _ => if c == ')' then 1 else 0
      | [] => 0
    some (cap, q1 + cap.length + q2 + p)

/-- One attempted match of `@import\s+(?:url\()?["']?([^"'\)]+)["']?\)?`. -/
def tryImport (l : List Char) : Option (List Char × Nat) :=
  match dropLit "@import".data l with
  | none => none
  | some r =>
    let ws := r.takeWhile isWs
    if ws.isEmpty then none
    else
      let r1 := r.drop ws.length
      match dropLit "url(".data r1 with
      | some r2 =>
        match tryImportTail r2 with
        | some capk => some (capk.1, 7 + ws.length + 4 + capk.2)
        | none =>
          match tryImportTail r1 with
          | some capk => some (capk.1, 7 + ws.length + capk.2)
          | none => none
      | none =>
        match tryImportTail r1 with
        | some capk => some (capk.1, 7 + ws.length + capk.2)
        | none => none

/-- One attempted match of `url\(["']?([^"'\)]+)["']?\)`. -/
def tryUrl (l : List Char) : Option (List Char × Nat) :=
  match dropLit "url(".data l with
  | none => none
  | some r =>
    let q1 := optQuote r
    let r1 := r.drop q1
    let cap := r1.takeWhile notQuoteParen
    if cap.isEmpty then none
    else
      let r2 := r1.drop cap.length
      let q2 := optQuote r2
      let r3 := r2.drop q2
      match r3 with
      | c :: _ => if c == ')' then some (cap, 4 + q1 + cap.length + q2 + 1) else none
      | [] => none

def importRefs (css : String) : List String :=
  (scanAll tryImport css.data).map String.mk

def urlRefs (css : String) : List String :=
  (scanAll tryUrl css.data).map String.mk

/-- Distance to just past the closing `*/` of a CSS comment, provided no
newline intervenes (the regex `.` does not match newlines). -/
def findCommentClose : List Char → Option Nat
  | [] => none
  | c :: r =>
    if c == '*' then
      match r with
      | c2 :: _ => if c2 == '/' then some 2 else (findCommentClose r).map (· + 1)
      | [] => none
    else if c == '\n' then none
    else (findCommentClose r).map (· + 1)

def stripCssAux : Nat → List Char → List Char
  | 0, _ => []
  | _ + 1, [] => []
  | fuel + 1, c :: r =>
    if c == '/' then
      match r with
      | c2 :: r2 =>
        if c2 == '*' then
          match findCommentClose r2 with
          | some k => stripCssAux fuel (r2.drop k)
          | none => c :: stripCssAux fuel r
        else c :: stripCssAux fuel r
      | [] => [c]
    else c :: stripCssAux fuel r

/-- Removal of `/\*.*?\*/` comments before scanning a stylesheet. -/
def strip_css_comments (css : String) : String :=
  String.mk (stripCssAux css.data.length css.data)

/-- Rust `HashSet::insert`, with insertion order kept for determinism. -/
def insertIfAbsent (l : List String) (x : String) : List String :=
  if x ∈ l then l else l ++ [x]

/-- `SplitEpub::scan_css_for_resources`: add every `@import` target and every
non-`data:` `url()` target of the comment-stripped stylesheet. -/
def scan_css_for_resources (cssContent baseHref : String)
    (linkedFiles : List String) : List String :=
  let basePath := get_path_part baseHref
  let clean := strip_css_comments cssContent
  let afterImports := (importRefs clean).foldl
    (fun acc u => insertIfAbsent acc (normStr (basePath ++ u))) linkedFiles
  (urlRefs clean).foldl
    (fun acc u =>
      if strStarts u "data:" then acc else insertIfAbsent acc (normStr (basePath ++ u)))
    afterImports

/-- `SplitEpub::scan_for_linked_files`: add every non-absolute `src=` /
`xlink:href=` target, every linked stylesheet, and — for each linked
stylesheet readable from the archive — that stylesheet's own import/url
targets. -/
def scan_for_linked_files (m : Model) (content baseHref : String)
    (linkedFiles : List String) : List String :=
  let basePath := get_path_part baseHref
  let afterImgs := (imgRefs content).foldl
    (fun acc src =>
      if strStarts src "http://" || strStarts src "https://" then acc
      else insertIfAbsent acc (normStr (basePath ++ src)))
    linkedFiles
  (cssLinkRefs content).foldl
    (fun acc href =>
      let fullPath := normStr (get_path_part baseHref ++ href)
      let acc1 := insertIfAbsent acc fullPath
      match read_file_from_archive m fullPath with
      | some css => scan_css_for_resources css fullPath acc1
      | none => acc1)
    afterImgs

/-! ## Claim C2 -/

/-- Targets contributed by a content document's `src=`/`xlink:href=`
attributes. -/
def imgTargets (content baseHref : String) : List String :=
  ((imgRefs content).filter
      (fun s => !(strStarts s "http://" || strStarts s "https://"))).map
    (fun s => normStr (get_path_part baseHref ++ s))

/-- Targets contributed by a content document's stylesheet links. -/
def linkTargets (content baseHref : String) : List String :=
  (cssLinkRefs content).map (fun h => normStr (get_path_part baseHref ++ h))

/-- Targets contributed by the body of one stylesheet. -/
def cssBodyTargets (css cssHref : String) : List String :=
  let base := get_path_part cssHref
  let clean := strip_css_comments css
  (importRefs clean).map (fun u => normStr (base ++ u)) ++
    ((urlRefs clean).filter (fun u => !(strStarts u "data:"))).map
      (fun u => normStr (base ++ u))

/-- Targets contributed by a discovered stylesheet, when it is readable. -/
def cssTargets (m : Model) (cssHref : String) : List String :=
  match read_file_from_archive m cssHref with
  | none => []
  | some css => cssBodyTargets css cssHref

theorem mem_insertIfAbsent {l : List String} {x y : String} :
    y ∈ insertIfAbsent l x ↔ y ∈ l ∨ y = x := by
  unfold insertIfAbsent
  by_cases h : x ∈ l
  · rw [if_pos h]
    constructor
    · exact .inl
    · rintro (hy | rfl)
      · exact hy
      · exact h
  · rw [if_neg h]
    simp

theorem mem_foldl_of_step {α : Type} (f : List String → α → List String)
    (P : α → String → Prop)
    (hf : ∀ acc a y, y ∈ f acc a ↔ y ∈ acc ∨ P a y) :
    ∀ (as : List α) (acc : List String) (y : String),
      y ∈ as.foldl f acc ↔ y ∈ acc ∨ ∃ a ∈ as, P a y := by
  intro as
  induction as with
  | nil => intro acc y; simp
  | cons a as ih =>
    intro acc y
    rw [List.foldl_cons, ih, hf]
    constructor
    · rintro ((h | h) | ⟨b, hb, hP⟩)
      · exact .inl h
      · exact .inr ⟨a, by simp, h⟩
      · exact .inr ⟨b, List.mem_cons_of_mem a hb, hP⟩
    · rintro (h | ⟨b, hb, hP⟩)
      · exact .inl (.inl h)
      · rcases List.mem_cons.mp hb with rfl | hb
        · exact .inl (.inr hP)
        · exact .inr ⟨b, hb, hP⟩

theorem mem_scan_css (css baseHref : String) (acc : List String) (y : String) :
    y ∈ scan_css_for_resources css baseHref acc ↔
      y ∈ acc ∨ y ∈ cssBodyTargets css baseHref := by
  unfold scan_css_for_resources
  rw [mem_foldl_of_step _
    (fun u y => ¬ strStarts u "data:" = true ∧ y = normStr (get_path_part baseHref ++ u))
    (by
      intro acc2 u y2
      by_cases hd : strStarts u "data:"
      · simp [hd]
      · simp [hd, mem_insertIfAbsent])]
  rw [mem_foldl_of_step _
    (fun u y => y = normStr (get_path_part baseHref ++ u))
    (fun _ _ _ => mem_insertIfAbsent)]
  unfold cssBodyTargets
  simp only [List.mem_append, List.mem_map, List.mem_filter, Bool.not_eq_true]
  constructor
  · rintro ((h | ⟨u, hu, rfl⟩) | ⟨u, hu, hd, rfl⟩)
    · exact .inl h
    · exact .inr (.inl ⟨u, hu, rfl⟩)
    · exact .inr (.inr ⟨u, ⟨hu, by simpa using hd⟩, rfl⟩)
  · rintro (h | (⟨u, hu, rfl⟩ | ⟨u, ⟨hu, hd⟩, rfl⟩))
    · exact .inl (.inl h)
    · exact .inl (.inr ⟨u, hu, rfl⟩)
    · exact .inr ⟨u, hu, by simpa using hd, rfl⟩

/-- C2 (amended): the resource closure is one level deep in the CSS import
graph.  A path is discovered exactly when it is an image/`xlink` target of
the document, a linked stylesheet, or an import/url target of a *linked*
stylesheet's own text; stylesheets reached only through `@import` are never
themselves read or scanned. -/
theorem c2_scan_closure_one_level (m : Model) (content baseHref : String)
    (acc : List String) (y : String) :
    y ∈ scan_for_linked_files m content baseHref acc ↔
      y ∈ acc ∨ y ∈ imgTargets content baseHref ∨ y ∈ linkTargets content baseHref ∨
        ∃ t ∈ linkTargets content baseHref, y ∈ cssTargets m t := by
  unfold scan_for_linked_files
  rw [mem_foldl_of_step _
    (fun href y => y = normStr (get_path_part baseHref ++ href) ∨
      ∃ css, read_file_from_archive m (normStr (get_path_part baseHref ++ href)) = some css ∧
        y ∈ cssBodyTargets css (normStr (get_path_part baseHref ++ href)))
    (by
      intro acc2 href y2
      cases hread : read_file_from_archive m (normStr (get_path_part baseHref ++ href)) with
      | none => simp [hread, mem_insertIfAbsent]
      | some css => simp [hread, mem_scan_css, mem_insertIfAbsent, or_assoc])]
  rw [mem_foldl_of_step _
    (fun src y => ¬ (strStarts src "http://" || strStarts src "https://") = true ∧
      y = normStr (get_path_part baseHref ++ src))
    (by
      intro acc2 src y2
      by_cases habs : (strStarts src "http://" || strStarts src "https://") = true
      · simp [habs]
      · simp [habs, mem_insertIfAbsent])]
  unfold imgTargets linkTargets cssTargets
  simp only [List.mem_map, List.mem_filter, Bool.not_eq_true]
  constructor
  · rintro ((h | ⟨src, hsrc, habs, rfl⟩) | ⟨href, hhref, h | ⟨css, hread, hcss⟩⟩)
    · exact .inl h
    · exact .inr (.inl ⟨src, ⟨hsrc, by simpa using habs⟩, rfl⟩)
    · exact .inr (.inr (.inl ⟨href, hhref, h.symm⟩))
    · refine .inr (.inr (.inr ⟨normStr (get_path_part baseHref ++ href),
        ⟨href, hhref, rfl⟩, ?_⟩))
      rw [hread]
      exact hcss
  · rintro (h | ⟨src, ⟨hsrc, habs⟩, rfl⟩ | ⟨href, hhref, rfl⟩ | ⟨t, ⟨href, hhref, rfl⟩, hy⟩)
    · exact .inl (.inl h)
    · exact .inl (.inr ⟨src, hsrc, by simpa using habs, rfl⟩)
    · exact .inr ⟨href, hhref, .inl rfl⟩
    · refine .inr ⟨href, hhref, .inr ?_⟩
      revert hy
      cases hread : read_file_from_archive m (normStr (get_path_part baseHref ++ href)) with
      | none => intro hy; simp at hy
      | some css => intro hy; exact ⟨css, rfl, hy⟩

def mC2 : Model :=
  { manifest_items := [], guide_items := [], toc_map := [], spine := []
    archive := [("A.css", "@import \"B.css\";"), ("B.css", "@import \"C.css\";")]
    orig_title := "", orig_authors := [] }

def docC2 : String := "<link rel=\"stylesheet\" type=\"text/css\" href=\"A.css\"/>"

/-- C2 counterexample: the document links `A.css`, `A.css` imports `B.css`,
and `B.css` imports `C.css`; the computed closure contains `B.css` but not
`C.css`, so the closure is not transitive across the CSS import graph. -/
theorem c2_counterexample :
    scan_for_linked_files mC2 docC2 "d.xhtml" [] = ["A.css", "B.css"] ∧
    "C.css" ∉ scan_for_linked_files mC2 docC2 "d.xhtml" [] := by
  refine ⟨by decide, ?_⟩
  intro h
  rw [show scan_for_linked_files mC2 docC2 "d.xhtml" [] = ["A.css", "B.css"] by decide] at h
  simp at h

/-! ## XML event streams

The parsers consume `quick_xml` events; the event stream itself is the
library's output and is modelled as a list.  Text payloads carry the
already-unescaped text, as produced by `Event::unescape`. -/

inductive XmlEvent where
  | start (name : String) (attrs : List (String × String))
  | emptyTag (name : String) (attrs : List (String × String))
  | text (s : String)
  | endTag (name : String)
deriving DecidableEq

/-- `quick_xml` `local_name`: the part of the qualified name after the first
colon. -/
def localName (s : String) : String :=
  match s.data.dropWhile (fun c => !(c == ':')) with
  | [] => s
  | _ :: rest => String.mk rest

/-! ## Package metadata pass (`SplitEpub::parse_metadata`) -/

def isTitleName (n : String) : Bool :=
  localName n == "title" || localName n == "dc:title"

def isCreatorName (n : String) : Bool :=
  localName n == "creator" || localName n == "dc:creator"

/-- The role-attribute check on a creator element: the creator counts as an
author unless some `role`/`opf:role` attribute differs from `aut`. -/
def roleCheck (attrs : List (String × String)) : Bool :=
  attrs.foldl
    (fun ca kv => if (kv.1 == "opf:role" || kv.1 == "role") && kv.2 != "aut" then false else ca)
    true

structure MetaState where
  title : String
  authors : List String
  inTitle : Bool
  inCreator : Bool
  creatorIsAuthor : Bool
deriving DecidableEq

def metaStep (st : MetaState) (ev : XmlEvent) : MetaState :=
  match ev with
  | .start n attrs =>
    if isTitleName n then { st with inTitle := true }
    else if isCreatorName n then { st with inCreator := true, creatorIsAuthor := roleCheck attrs }
    else st
  | .text t =>
    if st.inTitle then { st with title := t, inTitle := false }
    else if st.inCreator && st.creatorIsAuthor then
      { st with
        authors := if t ≠ "" ∧ ¬ st.authors.contains t then st.authors ++ [t] else st.authors,
        inCreator := false }
    else st
  | .endTag _ => { st with inTitle := false, inCreator := false }
  | .emptyTag _ _ => st

/-- `SplitEpub::parse_metadata` over the event stream of the package
document. -/
def parse_metadata (events : List XmlEvent) : String × List String :=
  let fin := events.foldl metaStep
    { title := "(Title Missing)", authors := [], inTitle := false, inCreator := false,
      creatorIsAuthor := true }
  (fin.title, if fin.authors.isEmpty then ["(Authors Missing)"] else fin.authors)

/-! ## Claim C9 -/

/-- A flat metadata element: name, attributes, and the text events inside
it. -/
structure MetaElem where
  name : String
  attrs : List (String × String)
  texts : List String
deriving DecidableEq

def renderMetaElem (e : MetaElem) : List XmlEvent :=
  XmlEvent.start e.name e.attrs :: (e.texts.map XmlEvent.text ++ [XmlEvent.endTag e.name])

def renderMeta (doc : List MetaElem) : List XmlEvent :=
  (doc.map renderMetaElem).flatten

/-- One element's effect on the extracted title. -/
def titleUpd (t : String) (e : MetaElem) : String :=
  if isTitleName e.name = true ∧ e.texts ≠ [] then e.texts.headD "" else t

/-- The title the metadata pass actually keeps: the first text of the *last*
title element that contains a text node, defaulting to `(Title Missing)`. -/
def titleOfElems (doc : List MetaElem) : String :=
  doc.foldl titleUpd "(Title Missing)"

theorem foldl_metaStep_texts_noop (ts : List String) :
    ∀ (st : MetaState), st.inTitle = false →
      (st.inCreator = false ∨ st.creatorIsAuthor = false) →
      (ts.map XmlEvent.text).foldl metaStep st = st := by
  induction ts with
  | nil => intro st _ _; rfl
  | cons t ts ih =>
    intro st h1 h2
    have hstep : metaStep st (XmlEvent.text t) = st := by
      rcases h2 with h | h <;> simp [metaStep, h1, h]
    simp only [List.map_cons, List.foldl_cons, hstep]
    exact ih st h1 h2

theorem foldl_metaStep_elem (e : MetaElem) (st : MetaState)
    (h1 : st.inTitle = false) (h2 : st.inCreator = false) :
    ∃ a2 ca2,
      (renderMetaElem e).foldl metaStep st =
        { title := titleUpd st.title e, authors := a2, inTitle := false, inCreator := false,
          creatorIsAuthor := ca2 } := by
  obtain ⟨tl, au, it, ic, ca⟩ := st
  simp only at h1 h2
  subst h1; subst h2
  by_cases ht : isTitleName e.name = true
  · cases hts : e.texts with
    | nil =>
      refine ⟨au, ca, ?_⟩
      simp [renderMetaElem, hts, metaStep, ht, titleUpd]
    | cons t ts =>
      refine ⟨au, ca, ?_⟩
      have hstart : metaStep ⟨tl, au, false, false, ca⟩ (XmlEvent.start e.name e.attrs) =
          ⟨tl, au, true, false, ca⟩ := by simp [metaStep, ht]
      have htext : metaStep ⟨tl, au, true, false, ca⟩ (XmlEvent.text t) =
          ⟨t, au, false, false, ca⟩ := by simp [metaStep]
      simp only [renderMetaElem, hts, List.map_cons, List.foldl_cons, List.foldl_append,
        hstart, htext]
      rw [foldl_metaStep_texts_noop ts ⟨t, au, false, false, ca⟩ rfl (.inl rfl)]
      simp [metaStep, ht, hts, titleUpd]
  · by_cases hc : isCreatorName e.name = true
    · cases hts : e.texts with
      | nil =>
        refine ⟨au, roleCheck e.attrs, ?_⟩
        simp [renderMetaElem, hts, metaStep, ht, hc, titleUpd]
      | cons t ts =>
        have hstart : metaStep ⟨tl, au, false, false, ca⟩ (XmlEvent.start e.name e.attrs) =
            ⟨tl, au, false, true, roleCheck e.attrs⟩ := by simp [metaStep, ht, hc]
        by_cases hr : roleCheck e.attrs = true
        · refine ⟨if t ≠ "" ∧ ¬ au.contains t then au ++ [t] else au, roleCheck e.attrs, ?_⟩
          have htext : metaStep ⟨tl, au, false, true, roleCheck e.attrs⟩ (XmlEvent.text t) =
              ⟨tl, if t ≠ "" ∧ ¬ au.contains t then au ++ [t] else au, false, false,
                roleCheck e.attrs⟩ := by
            simp [metaStep, hr]
          simp only [renderMetaElem, hts, List.map_cons, List.foldl_cons, List.foldl_append,
            hstart, htext]
          rw [foldl_metaStep_texts_noop ts _ rfl (.inl rfl)]
          simp [metaStep, ht, hts, titleUpd]
        · refine ⟨au, roleCheck e.attrs, ?_⟩
          simp only [renderMetaElem, hts, List.map_cons, List.foldl_cons, List.foldl_append,
            hstart]
          simp only [Bool.not_eq_true] at hr
          have htext : metaStep ⟨tl, au, false, true, roleCheck e.attrs⟩ (XmlEvent.text t) =
              ⟨tl, au, false, true, roleCheck e.attrs⟩ := by
            simp [metaStep, hr]
          rw [htext, foldl_metaStep_texts_noop ts _ rfl (.inr hr)]
          simp [metaStep, ht, hts, titleUpd]
    · refine ⟨au, ca, ?_⟩
      have hstart : metaStep ⟨tl, au, false, false, ca⟩ (XmlEvent.start e.name e.attrs) =
          ⟨tl, au, false, false, ca⟩ := by simp [metaStep, ht, hc]
      simp only [renderMetaElem, List.foldl_cons, List.foldl_append, hstart]
      rw [foldl_metaStep_texts_noop e.texts _ rfl (.inl rfl)]
      simp [metaStep, ht, titleUpd]

theorem foldl_metaStep_doc :
    ∀ (doc : List MetaElem) (st : MetaState), st.inTitle = false → st.inCreator = false →
      ∃ a2 ca2,
        (renderMeta doc).foldl metaStep st =
          { title := doc.foldl titleUpd st.title, authors := a2, inTitle := false,
            inCreator := false, creatorIsAuthor := ca2 } := by
  intro doc
  induction doc with
  | nil =>
    intro st h1 h2
    obtain ⟨tl, au, it, ic, ca⟩ := st
    simp only at h1 h2
    subst h1; subst h2
    exact ⟨au, ca, rfl⟩
  | cons e doc ih =>
    intro st h1 h2
    obtain ⟨a2, ca2, helem⟩ := foldl_metaStep_elem e st h1 h2
    have hsplit : renderMeta (e :: doc) = renderMetaElem e ++ renderMeta doc := by
      simp [renderMeta]
    obtain ⟨a3, ca3, hdoc⟩ := ih
      { title := titleUpd st.title e, authors := a2, inTitle := false, inCreator := false,
        creatorIsAuthor := ca2 } rfl rfl
    refine ⟨a3, ca3, ?_⟩
    rw [hsplit, List.foldl_append, helem, hdoc]
    simp

/-- C9 (amended): over any flat sequence of metadata elements, the metadata
pass keeps the first text of the *last* title element that has a text node
(not the first title element), defaulting to `(Title Missing)` when no title
element has text. -/
theorem c9_metadata_title_last (doc : List MetaElem) :
    (parse_metadata (renderMeta doc)).1 = titleOfElems doc := by
  obtain ⟨a2, ca2, h⟩ := foldl_metaStep_doc doc
    { title := "(Title Missing)", authors := [], inTitle := false, inCreator := false,
      creatorIsAuthor := true } rfl rfl
  simp only [parse_metadata, h, titleOfElems]

/-- C9 counterexample: with two title elements `A` then `B`, the extracted
title is `B` (the last), not `A` (the first). -/
theorem c9_counterexample :
    (parse_metadata (renderMeta
      [⟨"dc:title", [], ["A"]⟩, ⟨"dc:title", [], ["B"]⟩])).1 = "B" ∧ ("B" : String) ≠ "A" := by
  exact ⟨rfl, by decide⟩

/-! ## Navigation parser (`SplitEpub::parse_toc`) -/

def isWsTrim (c : Char) : Bool := c == ' ' || c == '\t' || c == '\n' || c == '\r'

/-- `str::trim` (ASCII whitespace). -/
def trimStr (s : String) : String :=
  String.mk (((s.data.dropWhile isWsTrim).reverse.dropWhile isWsTrim).reverse)

/-- The `src` attribute loop on a `content` element: the last `src`
attribute wins, normalized against the navigation document's directory. -/
def srcFromAttrs (tocRelpath cur : String) (attrs : List (String × String)) : String :=
  attrs.foldl (fun c kv => if kv.1 = "src" then normStr (tocRelpath ++ kv.2) else c) cur

/-- `current_src.splitn(2, '#')`: document path and optional anchor. -/
def splitAnchor (s : String) : String × Option String :=
  if '#' ∈ s.data then
    (String.mk (s.data.takeWhile (fun c => !(c == '#'))),
     some (String.mk ((s.data.dropWhile (fun c => !(c == '#'))).drop 1)))
  else (s, none)

/-- `Vec::insert` at an index. -/
def insertAt (l : List TocEntry) (n : Nat) (e : TocEntry) : List TocEntry :=
  l.take n ++ e :: l.drop n

/-- `HashMap` update: replace the value at the key, or append a new
binding. -/
def updAssoc : List (String × List TocEntry) → String → List TocEntry →
    List (String × List TocEntry)
  | [], k, v => [(k, v)]
  | (k0, v0) :: r, k, v => if k0 = k then (k, v) :: r else (k0, v0) :: updAssoc r k v

/-- Recording one navigation point: anchor-free entries are inserted after
the existing anchor-free block, anchor entries are appended. -/
def insertTocEntry (mp : List (String × List TocEntry)) (src text : String) :
    List (String × List TocEntry) :=
  let ha := splitAnchor src
  let entry : TocEntry := { text := text, anchor := ha.2 }
  let entries := (mp.lookup ha.1).getD []
  let newEntries :=
    if ha.2 = none then
      insertAt entries (entries.takeWhile (fun e => e.anchor.isNone)).length entry
    else entries ++ [entry]
  updAssoc mp ha.1 newEntries

structure TocState where
  map : List (String × List TocEntry)
  inNavPoint : Bool
  inText : Bool
  currentText : String
  currentSrc : String
  depth : Int
deriving DecidableEq

def tocStep (tocRelpath : String) (st : TocState) (ev : XmlEvent) : TocState :=
  match ev with
  | .start n attrs =>
    if localName n = "navPoint" then { st with inNavPoint := true, depth := st.depth + 1 }
    else if localName n = "text" ∧ st.inNavPoint then { st with inText := true }
    else if localName n = "content" ∧ st.inNavPoint ∧ st.depth = 1 then
      { st with currentSrc := srcFromAttrs tocRelpath st.currentSrc attrs }
    else st
  | .emptyTag n attrs =>
    if localName n = "content" ∧ st.inNavPoint ∧ st.depth = 1 then
      { st with currentSrc := srcFromAttrs tocRelpath st.currentSrc attrs }
    else st
  | .text t => if st.inText then { st with currentText := trimStr t } else st
  | .endTag n =>
    if localName n = "navPoint" then
      let st1 :=
        if st.depth = 1 ∧ st.currentSrc ≠ "" then
          { st with map := insertTocEntry st.map st.currentSrc st.currentText }
        else st
      if st1.depth - 1 = 0 then
        { st1 with
          depth := st1.depth - 1
          inNavPoint := false
          currentText := ""
          currentSrc := "" }
      else { st1 with depth := st1.depth - 1 }
    else if localName n = "text" then { st with inText := false }
    else st

/-- `SplitEpub::parse_toc` over the event stream of the navigation
document. -/
def parse_toc (events : List XmlEvent) (tocRelpath : String) :
    List (String × List TocEntry) :=
  (events.foldl (tocStep tocRelpath)
    { map := [], inNavPoint := false, inText := false, currentText := "", currentSrc := "",
      depth := 0 }).map

/-! ## Claim C8 -/

def evC8 : List XmlEvent :=
  [.start "navPoint" [], .start "text" [], .text "Ch1", .endTag "text",
   .emptyTag "content" [("src", "ch1.xhtml")],
   .start "navPoint" [], .start "text" [], .text "S1", .endTag "text",
   .emptyTag "content" [("src", "ch1.xhtml#s1")],
   .endTag "navPoint", .endTag "navPoint"]

/-- C8 counterexample: a depth-1 navigation point for `ch1.xhtml` with a
nested depth-2 point targeting `ch1.xhtml#s1` records only one entry (not an
additional one for the nested point); the nested point's target is ignored
and its label even overwrites the outer label. -/
theorem c8_counterexample :
    parse_toc evC8 "" = [("ch1.xhtml", [{ text := "S1", anchor := none }])] ∧
    ((parse_toc evC8 "").lookup "ch1.xhtml").getD [] ≠
      [{ text := "Ch1", anchor := none }, { text := "S1", anchor := some "s1" }] := by
  exact ⟨by decide, by decide⟩

/-- A navigation-point tree: label, content target, nested points. -/
inductive NavTree where
  | node (label : String) (src : String) (children : List NavTree)

def NavTree.labelOf : NavTree → String
  | .node l _ _ => l

def NavTree.srcOf : NavTree → String
  | .node _ s _ => s

def NavTree.childrenOf : NavTree → List NavTree
  | .node _ _ cs => cs

mutual

/-- The event stream of one navigation point. -/
def renderTree : NavTree → List XmlEvent
  | .node l s cs =>
    XmlEvent.start "navPoint" [] :: XmlEvent.start "text" [] :: XmlEvent.text l ::
    XmlEvent.endTag "text" :: XmlEvent.emptyTag "content" [("src", s)] ::
    (renderForest cs ++ [XmlEvent.endTag "navPoint"])

/-- The event stream of a sequence of navigation points. -/
def renderForest : List NavTree → List XmlEvent
  | [] => []
  | t :: ts => renderTree t ++ renderForest ts

end

mutual

/-- The label of the last text element in a navigation point's subtree. -/
def lastLabelT : NavTree → String
  | .node l _ cs => (lastLabelF cs).getD l

def lastLabelF : List NavTree → Option String
  | [] => none
  | t :: ts => some ((lastLabelF ts).getD (lastLabelT t))

end

/-- What the navigation parser records for a forest of navigation points:
one entry per *top-level* point (nested points record nothing), keyed by the
point's own normalized target, labelled with the last text seen inside the
whole point. -/
def tocSpecOfForest (rel : String) (ts : List NavTree) : List (String × List TocEntry) :=
  ts.foldl
    (fun acc t =>
      let s := normStr (rel ++ t.srcOf)
      if s = "" then acc else insertTocEntry acc s (trimStr (lastLabelT t)))
    []

theorem localName_navPoint : localName "navPoint" = "navPoint" := rfl

theorem localName_text : localName "text" = "text" := rfl

theorem localName_content : localName "content" = "content" := rfl

theorem tocStep_start_nav (rel : String) (st : TocState) :
    tocStep rel st (XmlEvent.start "navPoint" []) =
      { st with inNavPoint := true, depth := st.depth + 1 } := rfl

theorem tocStep_start_text (rel : String) (st : TocState) (h : st.inNavPoint = true) :
    tocStep rel st (XmlEvent.start "text" []) = { st with inText := true } := by
  obtain ⟨mp, nav, it, ct, cs, d⟩ := st
  simp only at h
  subst h
  rfl

theorem tocStep_text (rel : String) (st : TocState) (t : String) (h : st.inText = true) :
    tocStep rel st (XmlEvent.text t) = { st with currentText := trimStr t } := by
  obtain ⟨mp, nav, it, ct, cs, d⟩ := st
  simp only at h
  subst h
  rfl

theorem tocStep_end_text (rel : String) (st : TocState) :
    tocStep rel st (XmlEvent.endTag "text") = { st with inText := false } := rfl

theorem tocStep_content_deep (rel : String) (st : TocState) (attrs : List (String × String))
    (h : ¬ st.depth = 1) :
    tocStep rel st (XmlEvent.emptyTag "content" attrs) = st := by
  simp [tocStep, localName_content, h]

theorem tocStep_content_at1 (rel : String) (st : TocState) (attrs : List (String × String))
    (h1 : st.inNavPoint = true) (h2 : st.depth = 1) :
    tocStep rel st (XmlEvent.emptyTag "content" attrs) =
      { st with currentSrc := srcFromAttrs rel st.currentSrc attrs } := by
  simp [tocStep, localName_content, h1, h2]

theorem tocStep_end_nav_deep (rel : String) (st : TocState) (h1 : ¬ st.depth = 1)
    (h2 : ¬ st.depth - 1 = 0) :
    tocStep rel st (XmlEvent.endTag "navPoint") = { st with depth := st.depth - 1 } := by
  simp [tocStep, localName_navPoint, h1, h2]

theorem tocStep_end_nav_top (rel : String) (st : TocState) (h1 : st.depth = 1) :
    tocStep rel st (XmlEvent.endTag "navPoint") =
      { st with
        map := if st.currentSrc = "" then st.map
               else insertTocEntry st.map st.currentSrc st.currentText
        depth := 0
        inNavPoint := false
        currentText := ""
        currentSrc := "" } := by
  by_cases h2 : st.currentSrc = ""
  · simp [tocStep, localName_navPoint, h1, h2]
  · simp [tocStep, localName_navPoint, h1, h2]

theorem srcFromAttrs_single (rel cur v : String) :
    srcFromAttrs rel cur [("src", v)] = normStr (rel ++ v) := rfl

mutual

theorem foldl_tocStep_deep_tree (rel : String) (t : NavTree) (st : TocState)
    (h1 : st.inNavPoint = true) (h2 : st.inText = false) (h3 : 1 ≤ st.depth) :
    (renderTree t).foldl (tocStep rel) st =
      { st with currentText := trimStr (lastLabelT t) } := by
  obtain ⟨l, s, cs⟩ := t
  obtain ⟨mp, nav, it, ct, csrc, d⟩ := st
  simp only at h1 h2 h3
  subst h1; subst h2
  rw [renderTree]
  rw [List.foldl_cons, tocStep_start_nav]
  rw [List.foldl_cons, tocStep_start_text rel _ rfl]
  rw [List.foldl_cons, tocStep_text rel _ l rfl]
  rw [List.foldl_cons, tocStep_end_text]
  rw [List.foldl_cons, tocStep_content_deep rel _ _ (by simp; omega)]
  rw [List.foldl_append]
  rw [foldl_tocStep_deep_forest rel cs _ rfl rfl (by simp; omega)]
  rw [List.foldl_cons, List.foldl_nil]
  rw [tocStep_end_nav_deep rel _ (by simp; omega) (by simp; omega)]
  cases hll : lastLabelF cs <;>
    simp [lastLabelT, hll, Int.add_sub_cancel]

theorem foldl_tocStep_deep_forest (rel : String) (ts : List NavTree) (st : TocState)
    (h1 : st.inNavPoint = true) (h2 : st.inText = false) (h3 : 1 ≤ st.depth) :
    (renderForest ts).foldl (tocStep rel) st =
      { st with currentText := ((lastLabelF ts).map trimStr).getD st.currentText } := by
  cases ts with
  | nil =>
    rw [renderForest]
    simp [lastLabelF]
  | cons t ts2 =>
    rw [renderForest, List.foldl_append]
    rw [foldl_tocStep_deep_tree rel t st h1 h2 h3]
    rw [foldl_tocStep_deep_forest rel ts2 _ (by simp [h1]) (by simp [h2]) (by simpa using h3)]
    cases hll : lastLabelF ts2 <;> simp [lastLabelF, hll]

end

theorem foldl_tocStep_top (rel : String) :
    ∀ (ts : List NavTree) (mp : List (String × List TocEntry)),
      (renderForest ts).foldl (tocStep rel)
        { map := mp, inNavPoint := false, inText := false, currentText := "",
          currentSrc := "", depth := 0 } =
      { map := ts.foldl
          (fun acc t =>
            let s := normStr (rel ++ t.srcOf)
            if s = "" then acc else insertTocEntry acc s (trimStr (lastLabelT t)))
          mp,
        inNavPoint := false, inText := false, currentText := "", currentSrc := "",
        depth := 0 } := by
  intro ts
  induction ts with
  | nil =>
    intro mp
    rw [renderForest]
    simp
  | cons t ts2 ih =>
    intro mp
    obtain ⟨l, s, cs⟩ := t
    rw [renderForest, List.foldl_append]
    rw [renderTree]
    rw [List.foldl_cons, tocStep_start_nav]
    rw [List.foldl_cons, tocStep_start_text rel _ rfl]
    rw [List.foldl_cons, tocStep_text rel _ l rfl]
    rw [List.foldl_cons, tocStep_end_text]
    rw [List.foldl_cons, tocStep_content_at1 rel _ _ rfl (by simp)]
    rw [List.foldl_append]
    rw [foldl_tocStep_deep_forest rel cs _ rfl rfl (by simp)]
    rw [List.foldl_cons, List.foldl_nil]
    rw [tocStep_end_nav_top rel _ (by simp)]
    simp only [srcFromAttrs_single]
    rw [ih, List.foldl_cons]
    dsimp only
    cases hll : lastLabelF cs with
    | none =>
      simp only [NavTree.srcOf, lastLabelT, hll, Option.map_none', Option.getD_none]
    | some x =>
      simp only [NavTree.srcOf, lastLabelT, hll, Option.map_some', Option.getD_some]

/-- C8 (amended): navigation points nested below depth 1 are dropped, not
recorded: over any forest of navigation points, the parsed navigation map
has exactly one entry per top-level point (keyed by that point's own
normalized nonempty target), and a nested point contributes no entry of its
own — its label merely overwrites the pending label, so the recorded label
is the last text inside the whole top-level point. -/
theorem c8_nested_navpoints_dropped (rel : String) (ts : List NavTree) :
    parse_toc (renderForest ts) rel = tocSpecOfForest rel ts := by
  rw [parse_toc, foldl_tocStep_top rel ts []]
  rfl

/-! ## Split EPUB writer (`SplitEpub::write_split_epub`) -/

inductive Compression
  | stored
  | deflated
deriving DecidableEq

/-- One entry of the produced zip archive, in write order. -/
structure ZipEntry where
  name : String
  data : List Nat
  comp : Compression
deriving DecidableEq

inductive WriteErr
  | split (e : SplitErr)
  | outOfRange (idx max : Nat)
  | contentRead (href : String)
deriving DecidableEq

/-- The writer's staging state (lines 631-634 of the source). -/
structure StageState where
  contentFiles : List (String × String × String)
  linkedFiles : List String
  tocEntries : List (String × String)
  includedHrefs : List String
deriving DecidableEq

/-- The navigation target recorded for a split point. -/
def tocHrefOf (l : SplitLine) : String :=
  match l.anchor with
  | some a => l.href ++ "#" ++ a
  | none => l.href

/-- The staging loop of `write_split_epub` (lines 636-665): enumerate all
split points in ascending index order; for each selected one, stage its
content once per href and record one navigation entry per label. -/
def stageLoop (m : Model) (sectionIndices : List Nat) :
    Nat → List SplitLine → StageState → StageState
  | _, [], st => st
  | idx, line :: rest, st =>
    let st2 :=
      if idx ∈ sectionIndices then
        let st1 :=
          if line.href ∈ st.includedHrefs then st
          else
            let st0 :=
              { st with
                includedHrefs := st.includedHrefs ++ [line.href]
                contentFiles := st.contentFiles ++ [(line.href, line.id, line.media_type)] }
            match read_file_from_archive m line.href with
            | some content =>
              { st0 with
                linkedFiles := scan_for_linked_files m content line.href st0.linkedFiles }
            | none => st0
        { st1 with
          tocEntries := st1.tocEntries ++ line.toc.map (fun t => (t, tocHrefOf line)) }
      else st
    stageLoop m sectionIndices (idx + 1) rest st2

/-- The index-validation loop (lines 618-626): the first requested index not
below the number of split points, if any. -/
def firstOutOfRange : List Nat → Nat → Option Nat
  | [], _ => none
  | i :: rest, n => if n ≤ i then some i else firstOutOfRange rest n

/-- Fuel-indexed worker for `strReplace`. -/
def replaceList (pat repl : List Char) : Nat → List Char → List Char
  | 0, l => l
  | _ + 1, [] => []
  | fuel + 1, c :: rest =>
    match dropLit pat (c :: rest) with
    | some rem => repl ++ replaceList pat repl fuel rem
    | none => c :: replaceList pat repl fuel rest

/-- `str::replace` for nonempty patterns. -/
def strReplace (s pat repl : String) : String :=
  String.mk (replaceList pat.data repl.data s.data.length s.data)

/-- `SplitEpub::escape_xml`. -/
def escape_xml (s : String) : String :=
  strReplace (strReplace (strReplace (strReplace (strReplace s "&" "&amp;")
    "<" "&lt;") ">" "&gt;") "\"" "&quot;") "\x27" "&apos;"

/-- `SplitEpub::generate_container_xml`. -/
def generate_container_xml : String :=
  "<?xml version=\"1.0\" encoding=\"UTF-8\"?>\n<container version=\"1.0\" xmlns=\"urn:oasis:names:tc:opendocument:xmlns:container\">\n   <rootfiles>\n      <rootfile full-path=\"content.opf\" media-type=\"application/oebps-package+xml\"/>\n   </rootfiles>\n</container>\n"

/-- `SplitEpub::generate_cover_xhtml`. -/
def generate_cover_xhtml : String :=
  "<?xml version=\"1.0\" encoding=\"UTF-8\"?>\n<!DOCTYPE html PUBLIC \"-//W3C//DTD XHTML 1.1//EN\" \"http://www.w3.org/TR/xhtml11/DTD/xhtml11.dtd\">\n<html xmlns=\"http://www.w3.org/1999/xhtml\" xml:lang=\"en\">\n<head>\n   <title>Cover</title>\n   <style type=\"text/css\">\n      @page \x7b padding: 0pt; margin: 0pt; \x7d\n      body \x7b text-align: center; padding: 0pt; margin: 0pt; \x7d\n      div \x7b margin: 0pt; padding: 0pt; \x7d\n   </style>\n</head>\n<body>\n   <div>\n      <img src=\"cover.jpg\" alt=\"cover\"/>\n   </div>\n</body>\n</html>\n"

def strEndsWith (s pat : String) : Bool := startsList pat.data.reverse s.data.reverse

def strLower (s : String) : String := String.mk (s.data.map Char.toLower)

/-- `SplitEpub::guess_media_type`. -/
def guess_media_type (href : String) : String :=
  let lower := strLower href
  if strEndsWith lower ".css" then "text/css"
  else if strEndsWith lower ".jpg" || strEndsWith lower ".jpeg" then "image/jpeg"
  else if strEndsWith lower ".png" then "image/png"
  else if strEndsWith lower ".gif" then "image/gif"
  else if strEndsWith lower ".svg" then "image/svg+xml"
  else if strEndsWith lower ".ttf" then "application/x-font-ttf"
  else if strEndsWith lower ".otf" then "application/vnd.ms-opentype"
  else if strEndsWith lower ".woff" then "application/font-woff"
  else if strEndsWith lower ".woff2" then "font/woff2"
  else "application/octet-stream"

/-- `Vec::join(", ")`. -/
def joinComma : List String → String
  | [] => ""
  | [a] => a
  | a :: rest => a ++ ", " ++ joinComma rest

/-- `iter().enumerate()` from a starting index. -/
def enumIdx {α : Type} : Nat → List α → List (Nat × α)
  | _, [] => []
  | n, a :: rest => (n, a) :: enumIdx (n + 1) rest

/-- `SplitEpub::generate_content_opf`. -/
def generate_content_opf (unique_id title : String) (authors : List String)
    (description : String) (tags languages : List String)
    (manifest_items : List (String × String × String)) (spine_items : List String)
    (has_cover : Bool) : String :=
  "<?xml version=\"1.0\" encoding=\"UTF-8\"?>\n<package version=\"2.0\" xmlns=\"http://www.idpf.org/2007/opf\" unique-identifier=\"epubsplit-id\">\n   <metadata xmlns:dc=\"http://purl.org/dc/elements/1.1/\" xmlns:opf=\"http://www.idpf.org/2007/opf\">\n"
  ++ "      <dc:identifier id=\"epubsplit-id\">" ++ escape_xml unique_id ++ "</dc:identifier>\n"
  ++ "      <dc:title>" ++ escape_xml title ++ "</dc:title>\n"
  ++ String.join (authors.map (fun a =>
      "      <dc:creator opf:role=\"aut\">" ++ escape_xml a ++ "</dc:creator>\n"))
  ++ "      <dc:contributor opf:role=\"bkp\">epubsplit-rs</dc:contributor>\n"
  ++ String.join (languages.map (fun lg =>
      "      <dc:language>" ++ escape_xml lg ++ "</dc:language>\n"))
  ++ "      <dc:description>" ++ escape_xml description ++ "</dc:description>\n"
  ++ String.join (tags.map (fun tg =>
      "      <dc:subject>" ++ escape_xml tg ++ "</dc:subject>\n"))
  ++ (if has_cover then "      <meta name=\"cover\" content=\"coverimageid\"/>\n" else "")
  ++ "   </metadata>\n"
  ++ "   <manifest>\n"
  ++ String.join (manifest_items.map (fun it =>
      "      <item id=\"" ++ escape_xml it.1 ++ "\" href=\"" ++ escape_xml it.2.1
        ++ "\" media-type=\"" ++ escape_xml it.2.2 ++ "\"/>\n"))
  ++ "   </manifest>\n"
  ++ "   <spine toc=\"ncx\">\n"
  ++ String.join (spine_items.map (fun idref =>
      "      <itemref idref=\"" ++ escape_xml idref ++ "\" linear=\"yes\"/>\n"))
  ++ "   </spine>\n"
  ++ (if has_cover then
      "   <guide>\n      <reference type=\"cover\" title=\"Cover\" href=\"cover.xhtml\"/>\n   </guide>\n"
    else "")
  ++ "</package>\n"

/-- One `navPoint` block of the regenerated navigation document; the same
number is used for the id and the playOrder. -/
def navPointBlock (playOrder : Nat) (text src : String) : String :=
  "      <navPoint id=\"navpoint-" ++ toString playOrder ++ "\" playOrder=\""
  ++ toString playOrder ++ "\">\n"
  ++ "         <navLabel>\n"
  ++ "            <text>" ++ escape_xml text ++ "</text>\n"
  ++ "         </navLabel>\n"
  ++ "         <content src=\"" ++ escape_xml src ++ "\"/>\n"
  ++ "      </navPoint>\n"

/-- The `enumerate` loop of `generate_toc_ncx`: `play_order = idx + 1`. -/
def navPointsFrom : Nat → List (String × String) → String
  | _, [] => ""
  | idx, e :: rest => navPointBlock (idx + 1) e.1 e.2 ++ navPointsFrom (idx + 1) rest

/-- The head/docTitle part of the regenerated navigation document. -/
def ncxHeader (unique_id title : String) : String :=
  "<?xml version=\"1.0\" encoding=\"UTF-8\"?>\n<ncx version=\"2005-1\" xmlns=\"http://www.daisy.org/z3986/2005/ncx/\">\n   <head>\n"
  ++ "      <meta name=\"dtb:uid\" content=\"" ++ escape_xml unique_id ++ "\"/>\n"
  ++ "      <meta name=\"dtb:depth\" content=\"1\"/>\n"
  ++ "      <meta name=\"dtb:totalPageCount\" content=\"0\"/>\n"
  ++ "      <meta name=\"dtb:maxPageNumber\" content=\"0\"/>\n"
  ++ "   </head>\n"
  ++ "   <docTitle>\n"
  ++ "      <text>" ++ escape_xml title ++ "</text>\n"
  ++ "   </docTitle>\n"
  ++ "   <navMap>\n"

/-- `SplitEpub::generate_toc_ncx`. -/
def generate_toc_ncx (unique_id title : String) (toc_entries : List (String × String)) :
    String :=
  ncxHeader unique_id title ++ navPointsFrom 0 toc_entries ++ "   </navMap>\n</ncx>\n"

/-- The fatal content-file reads of the writer (lines 742-749): each staged
href is read again; a missing file aborts the write.  Returns
`(href, media_type, content)` triples. -/
def readContents (m : Model) :
    List (String × String × String) → Except String (List (String × String × String))
  | [] => .ok []
  | (href, _id, mt) :: rest =>
    match read_file_from_archive m href with
    | none => .error href
    | some content =>
      match readContents m rest with
      | .error e => .error e
      | .ok others => .ok ((href, mt, content) :: others)

/-- The linked-resource loop (lines 758-772): readable resources become
entries and manifest items numbered from the running counter; unreadable
ones are skipped with a warning.  Binary reads are modelled as the UTF-8
bytes of the archived text. -/
def resourceFold (m : Model) :
    Nat → List String → List ZipEntry × List (String × String × String)
  | _, [] => ([], [])
  | n, href :: rest =>
    match read_file_from_archive m href with
    | some dataStr =>
      let tail := resourceFold m (n + 1) rest
      (ZipEntry.mk href (strBytes dataStr) .deflated :: tail.1,
       ("resource" ++ toString n, href, guess_media_type href) :: tail.2)
    | none => resourceFold m n rest

/-- `SplitEpub::write_split_epub`: validate the selection, stage content and
resources, and emit the archive entries in the source's write order.  The
cover image bytes are passed directly (the source reads them from the
filesystem); `now` stands for the wall-clock seconds used for the unique
id.  The reported out-of-range maximum models the release-mode wrapping
`usize` subtraction `len - 1` (a debug build panics when `len = 0`). -/
def write_split_epub (m : Model) (sectionIndices : List Nat) (authors : List String)
    (title? description? : Option String) (tags languages : List String)
    (cover : Option (List Nat)) (now : Nat) : Except WriteErr (List ZipEntry) :=
  match get_split_lines m with
  | .error e => .error (.split e)
  | .ok splitLines =>
    match firstOutOfRange sectionIndices splitLines.length with
    | some idx => .error (.outOfRange idx ((splitLines.length + (2 ^ 64 - 1)) % 2 ^ 64))
    | none =>
      let st := stageLoop m sectionIndices 0 splitLines ⟨[], [], [], []⟩
      let uniqueId := "epubsplit-uid-" ++ toString now
      let finalTitle := title?.getD (m.orig_title ++ " Split")
      let finalDescription := description?.getD
        ("Split from " ++ m.orig_title ++ " by " ++ joinComma m.orig_authors ++ ".")
      match readContents m st.contentFiles with
      | .error href => .error (.contentRead href)
      | .ok contents =>
        let contentEntries := contents.map (fun x => ZipEntry.mk x.1 (strBytes x.2.2) .deflated)
        let contentMf := (enumIdx 0 contents).map
          (fun p => ("content" ++ toString p.1, p.2.1, p.2.2.1))
        let resPair := resourceFold m contents.length st.linkedFiles
        let manifestItems :=
          [("ncx", "toc.ncx", "application/x-dtbncx+xml")]
          ++ (if cover.isSome then
                [("coverimageid", "cover.jpg", "image/jpeg"),
                 ("cover", "cover.xhtml", "application/xhtml+xml")]
              else [])
          ++ contentMf ++ resPair.2
        let spineItems := (if cover.isSome then ["cover"] else [])
          ++ (enumIdx 0 contents).map (fun p => "content" ++ toString p.1)
        let opf := generate_content_opf uniqueId finalTitle authors finalDescription tags
          languages manifestItems spineItems cover.isSome
        let ncx := generate_toc_ncx uniqueId finalTitle st.tocEntries
        .ok
          (ZipEntry.mk "mimetype" (strBytes "application/epub+zip") .stored ::
           ZipEntry.mk "META-INF/container.xml" (strBytes generate_container_xml) .deflated ::
           (contentEntries ++ resPair.1 ++
            [ZipEntry.mk "content.opf" (strBytes opf) .deflated,
             ZipEntry.mk "toc.ncx" (strBytes ncx) .deflated] ++
            (match cover with
             | some bytes =>
               [ZipEntry.mk "cover.jpg" bytes .deflated,
                ZipEntry.mk "cover.xhtml" (strBytes generate_cover_xhtml) .deflated]
             | none => [])))

/-! ## Characterizing the staging loop (claims C3 and C4) -/

/-- The split points whose index is selected, in ascending index order. -/
def selectedOf (sel : List Nat) : Nat → List SplitLine → List SplitLine
  | _, [] => []
  | idx, l :: rest =>
    if idx ∈ sel then l :: selectedOf sel (idx + 1) rest else selectedOf sel (idx + 1) rest

/-- First-occurrence deduplication by href. -/
def dedupByHref : List SplitLine → List String → List (String × String × String)
  | [], _ => []
  | l :: rest, seen =>
    if l.href ∈ seen then dedupByHref rest seen
    else (l.href, l.id, l.media_type) :: dedupByHref rest (seen ++ [l.href])

/-- The navigation entries the writer records: one per navigation label of
each selected split point, in ascending split-point order. -/
def tocEntriesSpec (sel : List Nat) : Nat → List SplitLine → List (String × String)
  | _, [] => []
  | idx, l :: rest =>
    if idx ∈ sel then
      l.toc.map (fun t => (t, tocHrefOf l)) ++ tocEntriesSpec sel (idx + 1) rest
    else tocEntriesSpec sel (idx + 1) rest

theorem stageLoop_state (m : Model) (sel : List Nat) :
    ∀ (ls : List SplitLine) (idx : Nat) (st : StageState),
      (stageLoop m sel idx ls st).contentFiles =
        st.contentFiles ++ dedupByHref (selectedOf sel idx ls) st.includedHrefs ∧
      (stageLoop m sel idx ls st).includedHrefs =
        st.includedHrefs ++
          (dedupByHref (selectedOf sel idx ls) st.includedHrefs).map (fun x => x.1) ∧
      (stageLoop m sel idx ls st).tocEntries =
        st.tocEntries ++ tocEntriesSpec sel idx ls := by
  intro ls
  induction ls with
  | nil =>
    intro idx st
    simp [stageLoop, selectedOf, dedupByHref, tocEntriesSpec]
  | cons line rest ih =>
    intro idx st
    by_cases hsel : idx ∈ sel
    · by_cases hinc : line.href ∈ st.includedHrefs
      · have hstep : stageLoop m sel idx (line :: rest) st =
            stageLoop m sel (idx + 1) rest
              { st with
                tocEntries := st.tocEntries ++ line.toc.map (fun t => (t, tocHrefOf line)) } := by
          simp [stageLoop, hsel, hinc]
        rw [hstep]
        obtain ⟨h1, h2, h3⟩ := ih (idx + 1)
          { st with
            tocEntries := st.tocEntries ++ line.toc.map (fun t => (t, tocHrefOf line)) }
        refine ⟨?_, ?_, ?_⟩
        · rw [h1]; simp [selectedOf, dedupByHref, hsel, hinc]
        · rw [h2]; simp [selectedOf, dedupByHref, hsel, hinc]
        · rw [h3]; simp [selectedOf, tocEntriesSpec, hsel, List.append_assoc]
      · cases hread : read_file_from_archive m line.href with
        | some content =>
          have hstep : stageLoop m sel idx (line :: rest) st =
              stageLoop m sel (idx + 1) rest
                { contentFiles := st.contentFiles ++ [(line.href, line.id, line.media_type)]
                  linkedFiles := scan_for_linked_files m content line.href st.linkedFiles
                  tocEntries := st.tocEntries ++ line.toc.map (fun t => (t, tocHrefOf line))
                  includedHrefs := st.includedHrefs ++ [line.href] } := by
            simp [stageLoop, hsel, hinc, hread]
          rw [hstep]
          obtain ⟨h1, h2, h3⟩ := ih (idx + 1)
            { contentFiles := st.contentFiles ++ [(line.href, line.id, line.media_type)]
              linkedFiles := scan_for_linked_files m content line.href st.linkedFiles
              tocEntries := st.tocEntries ++ line.toc.map (fun t => (t, tocHrefOf line))
              includedHrefs := st.includedHrefs ++ [line.href] }
          refine ⟨?_, ?_, ?_⟩
          · rw [h1]; simp [selectedOf, dedupByHref, hsel, hinc]
          · rw [h2]; simp [selectedOf, dedupByHref, hsel, hinc]
          · rw [h3]; simp [selectedOf, tocEntriesSpec, hsel, List.append_assoc]
        | none =>
          have hstep : stageLoop m sel idx (line :: rest) st =
              stageLoop m sel (idx + 1) rest
                { contentFiles := st.contentFiles ++ [(line.href, line.id, line.media_type)]
                  linkedFiles := st.linkedFiles
                  tocEntries := st.tocEntries ++ line.toc.map (fun t => (t, tocHrefOf line))
                  includedHrefs := st.includedHrefs ++ [line.href] } := by
            simp [stageLoop, hsel, hinc, hread]
          rw [hstep]
          obtain ⟨h1, h2, h3⟩ := ih (idx + 1)
            { contentFiles := st.contentFiles ++ [(line.href, line.id, line.media_type)]
              linkedFiles := st.linkedFiles
              tocEntries := st.tocEntries ++ line.toc.map (fun t => (t, tocHrefOf line))
              includedHrefs := st.includedHrefs ++ [line.href] }
          refine ⟨?_, ?_, ?_⟩
          · rw [h1]; simp [selectedOf, dedupByHref, hsel, hinc]
          · rw [h2]; simp [selectedOf, dedupByHref, hsel, hinc]
          · rw [h3]; simp [selectedOf, tocEntriesSpec, hsel, List.append_assoc]
    · have hstep : stageLoop m sel idx (line :: rest) st =
          stageLoop m sel (idx + 1) rest st := by
        simp [stageLoop, hsel]
      rw [hstep]
      obtain ⟨h1, h2, h3⟩ := ih (idx + 1) st
      refine ⟨?_, ?_, ?_⟩
      · rw [h1]; simp [selectedOf, hsel]
      · rw [h2]; simp [selectedOf, hsel]
      · rw [h3]; simp [selectedOf, tocEntriesSpec, hsel]

theorem selectedOf_congr (sel1 sel2 : List Nat) (h : ∀ i, i ∈ sel1 ↔ i ∈ sel2) :
    ∀ (ls : List SplitLine) (idx : Nat), selectedOf sel1 idx ls = selectedOf sel2 idx ls := by
  intro ls
  induction ls with
  | nil => intro idx; rfl
  | cons l rest ih =>
    intro idx
    by_cases hi : idx ∈ sel1
    · rw [show selectedOf sel1 idx (l :: rest) = l :: selectedOf sel1 (idx + 1) rest by
        simp [selectedOf, hi]]
      rw [show selectedOf sel2 idx (l :: rest) = l :: selectedOf sel2 (idx + 1) rest by
        simp [selectedOf, (h idx).mp hi]]
      rw [ih]
    · rw [show selectedOf sel1 idx (l :: rest) = selectedOf sel1 (idx + 1) rest by
        simp [selectedOf, hi]]
      rw [show selectedOf sel2 idx (l :: rest) = selectedOf sel2 (idx + 1) rest by
        simp only [selectedOf, if_neg (fun h2 => hi ((h idx).mpr h2))]]
      rw [ih]

/-! ## Claim C4 -/

/-- C4 (amended): the writer walks the split points in *ascending index
order*, staging each split point whose index is selected (first occurrence
per href); the staged order — and hence the spine, which lists the staged
items in this order — depends only on which indices are selected, never on
the order the caller gave them in. -/
theorem c4_staging_in_ascending_index_order (m : Model) (sectionIndices : List Nat)
    (ls : List SplitLine) :
    (stageLoop m sectionIndices 0 ls ⟨[], [], [], []⟩).contentFiles =
      dedupByHref (selectedOf sectionIndices 0 ls) [] ∧
    ∀ sectionIndices2 : List Nat, (∀ i, i ∈ sectionIndices ↔ i ∈ sectionIndices2) →
      (stageLoop m sectionIndices2 0 ls ⟨[], [], [], []⟩).contentFiles =
        (stageLoop m sectionIndices 0 ls ⟨[], [], [], []⟩).contentFiles := by
  have h := (stageLoop_state m sectionIndices ls 0 ⟨[], [], [], []⟩).1
  refine ⟨by simpa using h, ?_⟩
  intro sel2 hiff
  have h2 := (stageLoop_state m sel2 ls 0 ⟨[], [], [], []⟩).1
  have hsel := selectedOf_congr sel2 sectionIndices (fun i => (hiff i).symm) ls 0
  simp only [h, h2, hsel]

def mC4 : Model :=
  { manifest_items := [("c1", ⟨"c1", "h1.xhtml", "t"⟩), ("c2", ⟨"c2", "h2.xhtml", "t"⟩)]
    guide_items := []
    toc_map := []
    spine := ["c1", "c2"]
    archive := [("h1.xhtml", "one"), ("h2.xhtml", "two")]
    orig_title := "T"
    orig_authors := [] }

def lsC4 : List SplitLine :=
  [{ toc := [], guide := none, anchor := none, id := "c1", href := "h1.xhtml",
     media_type := "t", sample := strBytes "one" },
   { toc := [], guide := none, anchor := none, id := "c2", href := "h2.xhtml",
     media_type := "t", sample := strBytes "two" }]

/-- C4 counterexample: with the out-of-order selection `[1, 0]` the writer
stages `h1.xhtml` before `h2.xhtml` — ascending split-point order, not the
caller's order. -/
theorem c4_counterexample :
    get_split_lines mC4 = .ok lsC4 ∧
    (stageLoop mC4 [1, 0] 0 lsC4 ⟨[], [], [], []⟩).contentFiles =
      [("h1.xhtml", "c1", "t"), ("h2.xhtml", "c2", "t")] ∧
    (stageLoop mC4 [1, 0] 0 lsC4 ⟨[], [], [], []⟩).contentFiles ≠
      [("h2.xhtml", "c2", "t"), ("h1.xhtml", "c1", "t")] := by
  refine ⟨rfl, by decide, by decide⟩

/-- C4 witness: the theorem applied to the two-chapter model with the
reversed selection `[1, 0]` versus `[0, 1]`. -/
theorem c4_witness :
    (stageLoop mC4 [0, 1] 0 lsC4 ⟨[], [], [], []⟩).contentFiles =
      (stageLoop mC4 [1, 0] 0 lsC4 ⟨[], [], [], []⟩).contentFiles :=
  (c4_staging_in_ascending_index_order mC4 [1, 0] lsC4).2 [0, 1]
    (by intro i; simp; tauto)

/-! ## Claim C3 -/

def strConcat : List String → String
  | [] => ""
  | s :: rest => s ++ strConcat rest

theorem navPointsFrom_numbered :
    ∀ (entries : List (String × String)) (k : Nat),
      navPointsFrom k entries =
        strConcat ((enumIdx k entries).map (fun p => navPointBlock (p.1 + 1) p.2.1 p.2.2)) := by
  intro entries
  induction entries with
  | nil => intro k; rfl
  | cons e rest ih =>
    intro k
    rw [navPointsFrom, enumIdx]
    simp only [List.map_cons, strConcat]
    rw [ih (k + 1)]

/-- C3 (amended): the regenerated navigation document gets one entry per
*navigation label* of each selected split point, in ascending split-point
order — a selected split point with no labels contributes no entry at all
(there is no fallback to a default title), and one with several labels
contributes several — each targeting the split point's href with `#anchor`
appended exactly when the split point carries an anchor, and the emitted
navPoints are numbered sequentially starting from 1. -/
theorem c3_nav_entries_one_per_label (m : Model) (sectionIndices : List Nat)
    (ls : List SplitLine) (uid ttl : String) :
    (stageLoop m sectionIndices 0 ls ⟨[], [], [], []⟩).tocEntries =
      tocEntriesSpec sectionIndices 0 ls ∧
    generate_toc_ncx uid ttl (tocEntriesSpec sectionIndices 0 ls) =
      ncxHeader uid ttl ++
      strConcat ((enumIdx 0 (tocEntriesSpec sectionIndices 0 ls)).map
        (fun p => navPointBlock (p.1 + 1) p.2.1 p.2.2)) ++
      "   </navMap>\n</ncx>\n" := by
  refine ⟨by simpa using (stageLoop_state m sectionIndices ls 0 ⟨[], [], [], []⟩).2.2, ?_⟩
  rw [generate_toc_ncx, navPointsFrom_numbered]

/-- C3 counterexample: the single split point of `mW1` has no navigation
label; selecting it (index 0, a valid index) yields an empty navigation-entry
list — not one entry with a default title per selected split point. -/
theorem c3_counterexample :
    get_split_lines mW1 = .ok lsW1 ∧ lsW1.length = 1 ∧
    (stageLoop mW1 [0] 0 lsW1 ⟨[], [], [], []⟩).tocEntries = [] := by
  refine ⟨rfl, rfl, by decide⟩

/-! ## Claim C6 -/

theorem firstOutOfRange_spec :
    ∀ (l : List Nat) (n i : Nat), firstOutOfRange l n = some i → i ∈ l ∧ n ≤ i := by
  intro l
  induction l with
  | nil => intro n i h; cases h
  | cons j rest ih =>
    intro n i h
    by_cases hj : n ≤ j
    · rw [show firstOutOfRange (j :: rest) n = some j by simp [firstOutOfRange, hj]] at h
      cases h
      exact ⟨by simp, hj⟩
    · rw [show firstOutOfRange (j :: rest) n = firstOutOfRange rest n by
        simp [firstOutOfRange, hj]] at h
      obtain ⟨h1, h2⟩ := ih n i h
      exact ⟨List.mem_cons_of_mem j h1, h2⟩

/-- C6: when some requested split-point index is not below the number of
split points, the writer fails with an out-of-range error carrying the first
such index and the maximum valid index (count minus one), before creating
any output (the result is an error, so no archive entries are staged or
written). -/
theorem c6_out_of_range_error (m : Model) (sectionIndices : List Nat) (authors : List String)
    (title? description? : Option String) (tags languages : List String)
    (cover : Option (List Nat)) (now : Nat) (ls : List SplitLine) (idx : Nat)
    (hok : get_split_lines m = .ok ls)
    (hfind : firstOutOfRange sectionIndices ls.length = some idx)
    (hlen : 1 ≤ ls.length) (hlen2 : ls.length < 2 ^ 64) :
    idx ∈ sectionIndices ∧ ls.length ≤ idx ∧
    write_split_epub m sectionIndices authors title? description? tags languages cover now =
      Except.error (WriteErr.outOfRange idx (ls.length - 1)) := by
  obtain ⟨hmem, hge⟩ := firstOutOfRange_spec sectionIndices ls.length idx hfind
  refine ⟨hmem, hge, ?_⟩
  have hmod : (ls.length + (2 ^ 64 - 1)) % 2 ^ 64 = ls.length - 1 := by
    have hpow : (2 : Nat) ^ 64 = 18446744073709551616 := by norm_num
    rw [hpow] at hlen2 ⊢
    omega
  unfold write_split_epub
  simp only [hok, hfind, hmod]

def mW6 : Model :=
  { manifest_items :=
      [("c1", ⟨"c1", "h1.xhtml", "t"⟩), ("c2", ⟨"c2", "h2.xhtml", "t"⟩),
       ("c3", ⟨"c3", "h3.xhtml", "t"⟩), ("c4", ⟨"c4", "h4.xhtml", "t"⟩)]
    guide_items := []
    toc_map := []
    spine := ["c1", "c2", "c3", "c4"]
    archive := []
    orig_title := "T"
    orig_authors := [] }

def lsW6 : List SplitLine :=
  [{ toc := [], guide := none, anchor := none, id := "c1", href := "h1.xhtml",
     media_type := "t", sample := [] },
   { toc := [], guide := none, anchor := none, id := "c2", href := "h2.xhtml",
     media_type := "t", sample := [] },
   { toc := [], guide := none, anchor := none, id := "c3", href := "h3.xhtml",
     media_type := "t", sample := [] },
   { toc := [], guide := none, anchor := none, id := "c4", href := "h4.xhtml",
     media_type := "t", sample := [] }]

/-- C6 witness: requesting index 5 of a 4-split-point book fails reporting
maximum valid index 3. -/
theorem c6_witness :
    write_split_epub mW6 [5] [] none none [] [] none 0 =
      Except.error (WriteErr.outOfRange 5 3) :=
  (c6_out_of_range_error mW6 [5] [] none none [] [] none 0 lsW6 5 rfl rfl (by decide)
    (by decide)).2.2

/-! ## Claim C7 -/

/-- C7: every successful write begins with a `mimetype` entry stored without
compression whose content is exactly the bytes of `application/epub+zip`,
written before every other archive entry. -/
theorem c7_mimetype_first_entry (m : Model) (sectionIndices : List Nat)
    (authors : List String) (title? description? : Option String)
    (tags languages : List String) (cover : Option (List Nat)) (now : Nat)
    (entries : List ZipEntry)
    (h : write_split_epub m sectionIndices authors title? description? tags languages cover
      now = Except.ok entries) :
    entries.head? =
      some (ZipEntry.mk "mimetype" (strBytes "application/epub+zip") Compression.stored) := by
  unfold write_split_epub at h
  cases hg : get_split_lines m with
  | error e => simp only [hg] at h; cases h
  | ok ls =>
    simp only [hg] at h
    cases hf : firstOutOfRange sectionIndices ls.length with
    | some i => simp only [hf] at h; cases h
    | none =>
      simp only [hf] at h
      cases hr : readContents m (stageLoop m sectionIndices 0 ls ⟨[], [], [], []⟩).contentFiles
        with
      | error e => simp only [hr] at h; cases h
      | ok contents =>
        simp only [hr] at h
        cases h
        rfl

/-- C7 witness: the writer applied to the one-chapter model; the first entry
of the produced archive is the stored `mimetype` entry. -/
theorem c7_witness :
    (write_split_epub mW1 [0] [] none none [] [] none 0).toOption.bind List.head? =
      some (ZipEntry.mk "mimetype" (strBytes "application/epub+zip") Compression.stored) := by
  obtain ⟨es, hes⟩ : ∃ es, write_split_epub mW1 [0] [] none none [] [] none 0 =
      Except.ok es := ⟨_, rfl⟩
  rw [hes]
  simpa using c7_mimetype_first_entry mW1 [0] [] none none [] [] none 0 es hes

end EpubSplit
